import Mathlib

set_option maxHeartbeats 1600000
set_option maxRecDepth 8000
set_option linter.unnecessarySeqFocus false

/-! Verification development for the schema-validation subsystem of the
repository: the reference-resolving translator and the two validators found
in schema1.rs and schema2.rs.  All definitions are shallow embeddings of the
Rust source; machine integers are modelled as Nat, fallible operations
(panics on out-of-range indexing, failed asserts, missing map keys) return
Option or Except, and the resolver's recursion is made total with an explicit
fuel parameter whose sufficiency is proved below. -/

/-- Kind of a JSON-like value and of a schema node.  Mirrors the Rust enum
named Type (variants object, string, number, bool, array, null) that
schema1.rs and schema2.rs both declare identically. -/
inductive Ty where
  | object
  | string
  | number
  | bool
  | array
  | null
deriving DecidableEq

/-- JSON-like data value, mirroring serde_json::Value.  Object fields keep
their textual order; lookup takes the first matching key.  Numbers are
modelled as integers, which is irrelevant to validation (only the kind of a
number is ever inspected). -/
inductive Value where
  | null
  | bool (b : Bool)
  | number (n : Int)
  | string (s : String)
  | array (elems : List Value)
  | object (fields : List (String × Value))

/-- Mirrors fn type_of, identical in schema1.rs and schema2.rs. -/
def typeOf : Value → Ty
  | .number _ => .number
  | .string _ => .string
  | .bool _ => .bool
  | .array _ => .array
  | .object _ => .object
  | .null => .null

/-- Mirrors Value::is_null. -/
def Value.isNull : Value → Bool
  | .null => true
  | _ => false

/-- First-match association-list lookup, modelling IndexMap::get (and the
unique-key map inside a serde_json object). -/
def lookupA {α : Type} : List (String × α) → String → Option α
  | [], _ => none
  | (k, v) :: rest, key => if k = key then some v else lookupA rest key

/-- Field access value[key] on an object's field list: the named field, or
Null when the key is absent (serde_json indexing semantics). -/
def lookupField (fields : List (String × Value)) (key : String) : Value :=
  (lookupA fields key).getD .null

/-- Debug rendering of a Ty, as the Rust derive(Debug) prints the Type
variants. -/
def kindStr : Ty → String
  | .object => "object"
  | .string => "string"
  | .number => "number"
  | .bool => "bool"
  | .array => "array"
  | .null => "null"

/-- Error string pushed by validate_inner on a kind mismatch, in both
schema1.rs and schema2.rs. -/
def mismatchMsg (path : String) (expected actual : Ty) : String :=
  (if path = "" then "/" else path) ++ ": type mismatch, expected: " ++
    kindStr expected ++ ", actual: " ++ kindStr actual

/-- Looking a key up in an object's fields yields either the Null value or
one of the fields, so its size never exceeds the size of the field list.
Used for the termination of the validators. -/
theorem sizeOf_lookupField_le (fields : List (String × Value)) (key : String) :
    sizeOf (lookupField fields key) ≤ sizeOf fields := by
  induction fields with
  | nil => simp [lookupField, lookupA]
  | cons p rest ih =>
    obtain ⟨k, v⟩ := p
    by_cases h : k = key
    · simp [lookupField, lookupA, h]
      omega
    · simp only [lookupField, lookupA, if_neg h] at ih ⊢
      simp only [List.cons.sizeOf_spec, Prod.mk.sizeOf_spec]
      omega

namespace Schema2

/-- Raw schema node as deserialized in schema2.rs (SourceTypeInfo): a kind
(defaulting to null), ordered properties, an optional items node, a
reference string (empty when absent, serde default), and the definitions
mapping (only meaningful at the document root). -/
inductive SourceTypeInfo where
  | mk (type_ : Ty) (properties : List (String × SourceTypeInfo))
      (items : Option SourceTypeInfo) (ref_ : String)
      (definitions : List (String × SourceTypeInfo))

def SourceTypeInfo.type_ : SourceTypeInfo → Ty
  | .mk t _ _ _ _ => t

def SourceTypeInfo.properties : SourceTypeInfo → List (String × SourceTypeInfo)
  | .mk _ p _ _ _ => p

def SourceTypeInfo.items : SourceTypeInfo → Option SourceTypeInfo
  | .mk _ _ i _ _ => i

def SourceTypeInfo.ref_ : SourceTypeInfo → String
  | .mk _ _ _ r _ => r

def SourceTypeInfo.definitions : SourceTypeInfo → List (String × SourceTypeInfo)
  | .mk _ _ _ _ d => d

/-- Sentinel stored in TypeInfo.items when the source node has no items:
usize::MAX on a 64-bit target. -/
def usizeMAX : Nat := 2 ^ 64 - 1

/-- Resolved arena node (TypeInfo in schema2.rs): kind, ordered properties
mapping names to arena indices, and an items arena index (usizeMAX when
absent). -/
structure TypeInfo where
  type_ : Ty
  properties : List (String × Nat)
  items : Nat
deriving DecidableEq

/-- Default::default() for TypeInfo: Type::null, empty properties, items 0. -/
def TypeInfo.default : TypeInfo :=
  { type_ := .null, properties := [], items := 0 }

/-- Resolved schema: the arena plus the root index. -/
structure Schema where
  types : List TypeInfo
  root : Nat
deriving DecidableEq

/-- Mutable state of the Translator: the reference-name to arena-index map
and the growing arena. -/
structure Translator where
  resolved : List (String × Nat)
  types : List TypeInfo
deriving DecidableEq

/-- The well-known reference form that every $ref must start with. -/
def refPfx : String := "#/definitions/"

/-- Rust str::starts_with, stated on the character lists so that it computes
by kernel reduction (Lean's own String.startsWith has the same semantics but
is defined through a byte-level loop that does not reduce). -/
def strStartsWith (s p : String) : Bool :=
  p.data.isPrefixOf s.data

/-- Rust byte slicing s[n..] as used to strip the reference form: dropping
the first n characters.  The stripped form "#/definitions/" is pure ASCII,
so dropping its byte length equals dropping its character length. -/
def strDrop (s : String) (n : Nat) : String :=
  String.mk (s.data.drop n)

/-- Outcomes that stop the fueled resolver: fuel exhaustion (an artifact of
the embedding, proved unreachable below) and badRef, which models the Rust
panics at the assert on the reference form and at the definitions-map
indexing. -/
inductive RErr where
  | fuel
  | badRef
deriving DecidableEq

mutual

/-- Mirrors Translator::resolve.  A node without a reference is translated
inline and appended; a node with a reference is served from the resolved
map when present, otherwise a placeholder slot is pushed, the name is
recorded, and the definition body is translated into the reserved slot. -/
def resolveF : Nat → List (String × SourceTypeInfo) → Translator →
    SourceTypeInfo → Except RErr (Translator × Nat)
  | 0, _, _, _ => .error .fuel
  | f + 1, defs, tx, src =>
    if src.ref_ = "" then
      match translateF f defs tx src with
      | .error e => .error e
      | .ok (tx1, t) =>
        .ok ({ tx1 with types := tx1.types ++ [t] }, tx1.types.length)
    else
      match lookupA tx.resolved src.ref_ with
      | some idx => .ok (tx, idx)
      | none =>
        let idx := tx.types.length
        let tx1 : Translator :=
          { resolved := (src.ref_, idx) :: tx.resolved,
            types := tx.types ++ [TypeInfo.default] }
        if strStartsWith src.ref_ refPfx then
          match lookupA defs (strDrop src.ref_ refPfx.length) with
          | some body =>
            match translateF f defs tx1 body with
            | .error e => .error e
            | .ok (tx2, t) =>
              .ok ({ tx2 with types := tx2.types.set idx t }, idx)
          | none => .error .badRef
        else .error .badRef
termination_by structural f _ _ _ => f

/-- Mirrors Translator::translate: resolve items first (usizeMAX when
absent), then every property in order, and build the arena node. -/
def translateF : Nat → List (String × SourceTypeInfo) → Translator →
    SourceTypeInfo → Except RErr (Translator × TypeInfo)
  | 0, _, _, _ => .error .fuel
  | f + 1, defs, tx, src =>
    match (match src.items with
           | some it => resolveF f defs tx it
           | none => .ok (tx, usizeMAX)) with
    | .error e => .error e
    | .ok (tx1, itemsIdx) =>
      match propsF f defs tx1 src.properties with
      | .error e => .error e
      | .ok (tx2, ps) =>
        .ok (tx2, { type_ := src.type_, properties := ps, items := itemsIdx })
termination_by structural f _ _ _ => f

/-- The properties loop of Translator::translate: resolve each property
value in order, keeping the keys. -/
def propsF : Nat → List (String × SourceTypeInfo) → Translator →
    List (String × SourceTypeInfo) → Except RErr (Translator × List (String × Nat))
  | 0, _, _, _ => .error .fuel
  | _ + 1, _, tx, [] => .ok (tx, [])
  | f + 1, defs, tx, (k, v) :: rest =>
    match resolveF f defs tx v with
    | .error e => .error e
    | .ok (tx1, i) =>
      match propsF f defs tx1 rest with
      | .error e => .error e
      | .ok (tx2, ps) => .ok (tx2, (k, i) :: ps)
termination_by structural f _ _ _ => f

end

/-- Mirrors fn translate: run resolve on the document against its own
definitions, starting from a Default translator, and package the arena with
the root index. -/
def translateTopF (f : Nat) (src : SourceTypeInfo) : Except RErr Schema :=
  match resolveF f src.definitions { resolved := [], types := [] } src with
  | .error e => .error e
  | .ok (tx, root) => .ok { types := tx.types, root := root }

/-- Arena indexing Schema::type_info; none models the Rust out-of-bounds
panic. -/
def Schema.typeInfo (s : Schema) (idx : Nat) : Option TypeInfo :=
  s.types[idx]?

mutual

/-- Mirrors validate_inner of schema2.rs.  Null is always valid; a kind
mismatch reports one error and stops descending; otherwise objects recurse
through their properties (value[key] on the object's fields) and arrays
recurse through their elements against the items node.  Because the guard
has already established that the value's kind equals the node's kind, the
object (resp. array) branch of the Rust code is entered exactly when the
value is an object (resp. array).  none models a panic (arena indexing out
of bounds). -/
def validate_inner (s : Schema) (t : TypeInfo) (v : Value) (path : String) :
    Option (List String) :=
  if v.isNull then some []
  else if typeOf v ≠ t.type_ then some [mismatchMsg path t.type_ (typeOf v)]
  else
    match v with
    | .object fields => goProps s t.properties fields path
    | .array elems =>
      match s.typeInfo t.items with
      | none => none
      | some child => goElems s child elems 0 path
    | _ => some []
termination_by (sizeOf v, 0)
decreasing_by
· exact Prod.Lex.left _ _ (by simp_arith)
· exact Prod.Lex.left _ _ (by simp_arith)

/-- The properties loop of validate_inner: dereference each property's arena
index, recurse on value[key], and concatenate the collected errors in
order. -/
def goProps (s : Schema) (props : List (String × Nat))
    (fields : List (String × Value)) (path : String) : Option (List String) :=
  match props with
  | [] => some []
  | (key, ci) :: rest =>
    match s.typeInfo ci with
    | none => none
    | some child =>
      match validate_inner s child (lookupField fields key) (path ++ "/" ++ key) with
      | none => none
      | some errs1 =>
        match goProps s rest fields path with
        | none => none
        | some errs2 => some (errs1 ++ errs2)
termination_by (sizeOf fields, 1 + props.length)
decreasing_by
· rcases Nat.lt_or_eq_of_le (sizeOf_lookupField_le fields key) with h | h
  · exact Prod.Lex.left _ _ h
  · rw [h]
    exact Prod.Lex.right _ (by omega)
· exact Prod.Lex.right _ (by simp_arith)

/-- The array loop of validate_inner: recurse on each element in order with
its decimal index appended to the path. -/
def goElems (s : Schema) (child : TypeInfo) (elems : List Value) (idx : Nat)
    (path : String) : Option (List String) :=
  match elems with
  | [] => some []
  | v :: rest =>
    match validate_inner s child v (path ++ "/" ++ toString idx) with
    | none => none
    | some errs1 =>
      match goElems s child rest (idx + 1) path with
      | none => none
      | some errs2 => some (errs1 ++ errs2)
termination_by (sizeOf elems, 0)
decreasing_by
· exact Prod.Lex.left _ _ (by simp_arith)
· exact Prod.Lex.left _ _ (by simp_arith)

end

/-- Mirrors fn validate of schema2.rs: look up the root node and run the
recursive matcher with an empty path. -/
def validate (s : Schema) (v : Value) : Option (List String) :=
  match s.typeInfo s.root with
  | none => none
  | some t => validate_inner s t v ""

/-- Whole pipeline of schema2.rs: resolve the document, then validate the
value against the resolved schema; none when either step panics (or fuel
runs out). -/
def pipeline (f : Nat) (doc : SourceTypeInfo) (v : Value) : Option (List String) :=
  match translateTopF f doc with
  | .error _ => none
  | .ok s => validate s v

end Schema2

namespace Schema1

/-- Schema node as deserialized in schema1.rs (TypeInfo): a required kind,
ordered properties holding child nodes by value, and an optional items
child.  No references and no definitions exist in this simpler engine. -/
inductive TypeInfo where
  | mk (type_ : Ty) (properties : List (String × TypeInfo))
      (items : Option TypeInfo)

def TypeInfo.type_ : TypeInfo → Ty
  | .mk t _ _ => t

def TypeInfo.properties : TypeInfo → List (String × TypeInfo)
  | .mk _ p _ => p

def TypeInfo.items : TypeInfo → Option TypeInfo
  | .mk _ _ i => i

mutual

/-- Mirrors validate_inner of schema1.rs; identical to the schema2 matcher
except that children are held by value and items is an Option whose unwrap
on None (reached for an array-kinded value) is modelled as none. -/
def validate_inner (t : TypeInfo) (v : Value) (path : String) :
    Option (List String) :=
  if v.isNull then some []
  else if typeOf v ≠ t.type_ then some [mismatchMsg path t.type_ (typeOf v)]
  else
    match v with
    | .object fields => goProps t.properties fields path
    | .array elems =>
      match t.items with
      | none => none
      | some child => goElems child elems 0 path
    | _ => some []
termination_by (sizeOf v, 0)
decreasing_by
· exact Prod.Lex.left _ _ (by simp_arith)
· exact Prod.Lex.left _ _ (by simp_arith)

/-- The properties loop of schema1's validate_inner. -/
def goProps (props : List (String × TypeInfo))
    (fields : List (String × Value)) (path : String) : Option (List String) :=
  match props with
  | [] => some []
  | (key, child) :: rest =>
    match validate_inner child (lookupField fields key) (path ++ "/" ++ key) with
    | none => none
    | some errs1 =>
      match goProps rest fields path with
      | none => none
      | some errs2 => some (errs1 ++ errs2)
termination_by (sizeOf fields, 1 + props.length)
decreasing_by
· rcases Nat.lt_or_eq_of_le (sizeOf_lookupField_le fields key) with h | h
  · exact Prod.Lex.left _ _ h
  · rw [h]
    exact Prod.Lex.right _ (by omega)
· exact Prod.Lex.right _ (by simp_arith)

/-- The array loop of schema1's validate_inner. -/
def goElems (child : TypeInfo) (elems : List Value) (idx : Nat)
    (path : String) : Option (List String) :=
  match elems with
  | [] => some []
  | v :: rest =>
    match validate_inner child v (path ++ "/" ++ toString idx) with
    | none => none
    | some errs1 =>
      match goElems child rest (idx + 1) path with
      | none => none
      | some errs2 => some (errs1 ++ errs2)
termination_by (sizeOf elems, 0)
decreasing_by
· exact Prod.Lex.left _ _ (by simp_arith)
· exact Prod.Lex.left _ _ (by simp_arith)

end

/-- Mirrors fn validate of schema1.rs. -/
def validate (t : TypeInfo) (v : Value) : Option (List String) :=
  validate_inner t v ""

end Schema1

namespace Schema2

mutual

/-- Number of nodes of a raw schema node, counting items and properties
children (the definitions mapping is not counted: resolution enters it only
through the reference table, which the termination bound accounts for
separately). -/
def sizeS : SourceTypeInfo → Nat
  | .mk _ props (some it) _ _ => 1 + sizeS it + sizePs props
  | .mk _ props none _ _ => 1 + sizePs props

/-- Size of a property list of raw schema nodes. -/
def sizePs : List (String × SourceTypeInfo) → Nat
  | [] => 0
  | (_, v) :: rest => 1 + sizeS v + sizePs rest

end

mutual

/-- Every reference string occurring anywhere in a raw schema node,
including inside its definitions mapping. -/
def refsIn : SourceTypeInfo → List String
  | .mk _ props (some it) r ds => r :: (refsIn it ++ refsInPs props ++ refsInPs ds)
  | .mk _ props none r ds => r :: (refsInPs props ++ refsInPs ds)

/-- Reference strings occurring in a list of named raw schema nodes. -/
def refsInPs : List (String × SourceTypeInfo) → List String
  | [] => []
  | (_, v) :: rest => refsIn v ++ refsInPs rest

end

mutual

/-- A node is reference-well-formed w.r.t. a definitions mapping: a node
without a reference needs all its children well-formed; a node with a
reference needs the reference to have the required form and to name an
existing definition (its own children are ignored by resolution). -/
def nodeRefsOk (defs : List (String × SourceTypeInfo)) : SourceTypeInfo → Bool
  | src =>
    if src.ref_ = "" then bodyRefsOk defs src
    else strStartsWith src.ref_ refPfx &&
      (lookupA defs (strDrop src.ref_ refPfx.length)).isSome

/-- Reference-well-formedness of a node's children (items and properties)
only, which is what Translator::translate needs: the node's own reference
is ignored there. -/
def bodyRefsOk (defs : List (String × SourceTypeInfo)) : SourceTypeInfo → Bool
  | .mk _ props (some it) _ _ => nodeRefsOk defs it && propsRefsOk defs props
  | .mk _ props none _ _ => propsRefsOk defs props

/-- Reference-well-formedness of each node of a property list. -/
def propsRefsOk (defs : List (String × SourceTypeInfo)) :
    List (String × SourceTypeInfo) → Bool
  | [] => true
  | (_, v) :: rest => nodeRefsOk defs v && propsRefsOk defs rest

end

/-- Every definition body has reference-well-formed children. -/
def defsOk (defs : List (String × SourceTypeInfo)) : Bool :=
  defs.all (fun p => bodyRefsOk defs p.2)

/-- Largest size of a definition body; every body reachable through the
definitions mapping is bounded by it. -/
def defsMax (defs : List (String × SourceTypeInfo)) : Nat :=
  defs.foldr (fun p acc => max (sizeS p.2) acc) 0

/-- Per-reference fuel charge used by the termination measure. -/
def CC (defs : List (String × SourceTypeInfo)) : Nat :=
  2 * defsMax defs + 1

/-- Number of reference strings of the ambient list R not yet recorded in
the resolved table: the part of the termination measure that shrinks each
time a new reference is reserved. -/
def UU (R : List String) (tx : Translator) : Nat :=
  R.countP (fun r => (lookupA tx.resolved r).isNone)

/-- Termination measure for resolveF. -/
def muR (R : List String) (defs : List (String × SourceTypeInfo))
    (tx : Translator) (src : SourceTypeInfo) : Nat :=
  UU R tx * CC defs + 2 * sizeS src + 1

/-- Termination measure for translateF. -/
def muT (R : List String) (defs : List (String × SourceTypeInfo))
    (tx : Translator) (src : SourceTypeInfo) : Nat :=
  UU R tx * CC defs + 2 * sizeS src

/-- Termination measure for propsF. -/
def muP (R : List String) (defs : List (String × SourceTypeInfo))
    (tx : Translator) (l : List (String × SourceTypeInfo)) : Nat :=
  UU R tx * CC defs + 2 * sizePs l + 1

/-- Well-formedness of one arena node relative to an arena of length n:
every property index is in range, and the items index is either the absent
sentinel or in range. -/
def nodeOk (n : Nat) (t : TypeInfo) : Prop :=
  (∀ p ∈ t.properties, p.2 < n) ∧ (t.items = usizeMAX ∨ t.items < n)

/-- Invariant of the translator state: recorded reference indices point into
the arena, and every stored node is well-formed for the current arena
length. -/
def TxInv (tx : Translator) : Prop :=
  (∀ p ∈ tx.resolved, p.2 < tx.types.length) ∧
    ∀ t ∈ tx.types, nodeOk tx.types.length t

mutual

/-- A raw schema node with no reference and no definitions anywhere. -/
def refFree : SourceTypeInfo → Bool
  | .mk _ props (some it) r ds =>
    (r == "") && ds.isEmpty && refFree it && propsRefFree props
  | .mk _ props none r ds => (r == "") && ds.isEmpty && propsRefFree props

/-- Reference-freedom of each node of a property list. -/
def propsRefFree : List (String × SourceTypeInfo) → Bool
  | [] => true
  | (_, v) :: rest => refFree v && propsRefFree rest

end

mutual

/-- The evident embedding of a reference-free schema2 document into the
schema1 node type: drop the (empty) reference and definitions fields. -/
def erase : SourceTypeInfo → Schema1.TypeInfo
  | .mk ty props (some it) _ _ => .mk ty (eraseProps props) (some (erase it))
  | .mk ty props none _ _ => .mk ty (eraseProps props) none

/-- Pointwise embedding of a property list. -/
def eraseProps : List (String × SourceTypeInfo) →
    List (String × Schema1.TypeInfo)
  | [] => []
  | (k, v) :: rest => (k, erase v) :: eraseProps rest

end

/-- Simulation relation for the schema1 refinement: the arena index i holds
a node that validates every value exactly as the schema1 node t1 does. -/
def corr (s : Schema) (i : Nat) (t1 : Schema1.TypeInfo) : Prop :=
  ∃ ti, s.types[i]? = some ti ∧
    ∀ v path, validate_inner s ti v path = Schema1.validate_inner t1 v path

/-- Pairwise simulation between resolved properties and schema1
properties: equal keys and related nodes. -/
def corrProps (s : Schema) (ps : List (String × Nat))
    (ps1 : List (String × Schema1.TypeInfo)) : Prop :=
  List.Forall₂ (fun p2 p1 => p2.1 = p1.1 ∧ corr s p2.2 p1.2) ps ps1

end Schema2

open Schema2 in
/-- Definition body of person: an object whose children property is an
array of references back to person. -/
def personDef : SourceTypeInfo :=
  .mk .object
    [("children", .mk .array [] (some (.mk .null [] none "#/definitions/person" [])) "" [])]
    none "" []

open Schema2 in
/-- Schema document whose root is a reference to the self-referential
person definition. -/
def personDoc : SourceTypeInfo :=
  .mk .null [] none "#/definitions/person" [("person", personDef)]

open Schema2 in
/-- Resolved form of personDoc: node 0 is person (backfilled over the
placeholder), node 1 is the children array pointing back to node 0. -/
def personSchema : Schema :=
  { types := [ { type_ := .object, properties := [("children", 1)], items := usizeMAX },
               { type_ := .array, properties := [], items := 0 } ],
    root := 0 }

/-- Data value with a person whose grandchild is a number instead of an
object. -/
def personVal : Value :=
  .object [("children", .array [.object [("children", .array [.number 1])]])]

open Schema2 in
/-- Document for the kind-mismatch test: object with a numeric property a. -/
def docC4 : SourceTypeInfo :=
  .mk .object [("a", .mk .number [] none "" [])] none "" []

/-- Value with a string at a and an undeclared key b. -/
def valC4 : Value :=
  .object [("a", .string "x"), ("b", .number 1)]

open Schema2 in
/-- Document for the path-composition test: object with an items property
that is an array of strings. -/
def docC5 : SourceTypeInfo :=
  .mk .object
    [("items", .mk .array [] (some (.mk .string [] none "" [])) "" [])]
    none "" []

/-- Value whose items array holds a number, a string and an object. -/
def valC5 : Value :=
  .object [("items", .array [.number 1, .string "ok", .object []])]

open Schema2 in
/-- Document that contains a malformed reference string inside a definition
that nothing references: resolution never reaches it. -/
def docC7 : SourceTypeInfo :=
  .mk .null [] none "" [("a", .mk .null [] none "oops" [])]

/-- The properties loop collects, in property order, the errors of each
dereferenced child on the looked-up field, concatenated. -/
theorem goProps_eq_mapM (s : Schema2.Schema) (props : List (String × Nat))
    (fields : List (String × Value)) (path : String) :
    Schema2.goProps s props fields path =
      Option.map List.flatten (props.mapM' (fun p =>
        (s.typeInfo p.2).bind (fun child =>
          Schema2.validate_inner s child (lookupField fields p.1) (path ++ "/" ++ p.1)))) := by
  induction props with
  | nil => simp [Schema2.goProps]
  | cons p rest ih =>
    obtain ⟨key, ci⟩ := p
    rw [Schema2.goProps, ih]
    cases hti : s.typeInfo ci with
    | none => simp [hti]
    | some child =>
      cases hv : Schema2.validate_inner s child (lookupField fields key) (path ++ "/" ++ key) with
      | none => simp [hti, hv]
      | some errs1 =>
        cases hm : rest.mapM' (fun p =>
            (s.typeInfo p.2).bind (fun child =>
              Schema2.validate_inner s child (lookupField fields p.1) (path ++ "/" ++ p.1))) with
        | none => simp [hti, hv, hm]
        | some ls => simp [hti, hv, hm]

/-- The array loop collects, in element order, the errors of the items node
on each element, with the element's decimal position appended to the path. -/
theorem goElems_eq_mapM (s : Schema2.Schema) (child : Schema2.TypeInfo)
    (elems : List Value) (idx : Nat) (path : String) :
    Schema2.goElems s child elems idx path =
      Option.map List.flatten ((List.enumFrom idx elems).mapM' (fun e =>
        Schema2.validate_inner s child e.2 (path ++ "/" ++ toString e.1))) := by
  induction elems generalizing idx with
  | nil => simp [Schema2.goElems, List.enumFrom]
  | cons v rest ih =>
    rw [Schema2.goElems, ih (idx + 1)]
    cases hv : Schema2.validate_inner s child v (path ++ "/" ++ toString idx) with
    | none => simp [hv, List.enumFrom]
    | some errs1 =>
      cases hm : (List.enumFrom (idx + 1) rest).mapM' (fun e =>
          Schema2.validate_inner s child e.2 (path ++ "/" ++ toString e.1)) with
      | none => simp [hv, hm, List.enumFrom]
      | some ls => simp [hv, hm, List.enumFrom]

/-- C1: resolving the document whose person definition is an object whose
children property is an array of references back to person, and validating
the value with a numeric grandchild, returns exactly the single error at
/children/0/children/0. -/
theorem claim1_self_reference_end_to_end :
    Schema2.pipeline 20 personDoc personVal =
      some ["/children/0/children/0: type mismatch, expected: object, actual: number"] := by
  have h : Schema2.translateTopF 20 personDoc = .ok personSchema := by rfl
  simp only [Schema2.pipeline, h]
  simp [Schema2.validate, Schema2.validate_inner, Schema2.goProps, Schema2.goElems,
    Schema2.Schema.typeInfo, lookupField, lookupA, typeOf, Value.isNull, mismatchMsg,
    kindStr, personVal, personSchema, Schema2.usizeMAX] <;> rfl

/-- C4: a non-null value whose kind differs from the node's declared kind
yields exactly the one mismatch error (path rendered as / when empty, per
mismatchMsg) and nothing from below that subtree; concretely, docC4 against
valC4 reports only the error at /a and never inspects the undeclared key b. -/
theorem claim4_mismatch_single_error :
    (∀ (s : Schema2.Schema) (t : Schema2.TypeInfo) (v : Value) (path : String),
        v.isNull = false → typeOf v ≠ t.type_ →
        Schema2.validate_inner s t v path = some [mismatchMsg path t.type_ (typeOf v)]) ∧
    Schema2.pipeline 10 docC4 valC4 =
      some ["/a: type mismatch, expected: number, actual: string"] := by
  constructor
  · intro s t v path hnull hne
    cases v with
    | null => simp [Value.isNull] at hnull
    | bool b => simp [Schema2.validate_inner, Value.isNull, hne]
    | number n => simp [Schema2.validate_inner, Value.isNull, hne]
    | string str => simp [Schema2.validate_inner, Value.isNull, hne]
    | array elems => simp [Schema2.validate_inner, Value.isNull, hne]
    | object fields => simp [Schema2.validate_inner, Value.isNull, hne]
  · have h : Schema2.translateTopF 10 docC4 =
        .ok { types := [ { type_ := .number, properties := [], items := Schema2.usizeMAX },
                         { type_ := .object, properties := [("a", 0)], items := Schema2.usizeMAX } ],
              root := 1 } := by rfl
    simp only [Schema2.pipeline, h]
    simp [Schema2.validate, Schema2.validate_inner, Schema2.goProps, Schema2.goElems,
      Schema2.Schema.typeInfo, lookupField, lookupA, typeOf, Value.isNull, mismatchMsg,
      kindStr, valC4, Schema2.usizeMAX]

/-- Witness for C4: a string value against an object node at the root
produces exactly the root mismatch error. -/
theorem claim4_witness :
    Schema2.validate_inner { types := [], root := 0 }
      { type_ := .object, properties := [], items := 0 } (.string "hello") "" =
      some [mismatchMsg "" .object .string] :=
  claim4_mismatch_single_error.1 { types := [], root := 0 }
    { type_ := .object, properties := [], items := 0 } (.string "hello") "" rfl (by decide)

/-- C5: on an object node the error list is the in-order concatenation over
the declared properties of the child errors at path/propertyName; on an
array node it is the in-order concatenation over the elements of the items
errors at path/decimalIndex; so errors come out in pre-order, left-to-right,
depth-first order, as the concrete docC5/valC5 example shows. -/
theorem claim5_path_composition_order :
    (∀ (s : Schema2.Schema) (props : List (String × Nat)) (it : Nat)
        (fields : List (String × Value)) (path : String),
        Schema2.validate_inner s ⟨.object, props, it⟩ (.object fields) path =
          Option.map List.flatten (props.mapM' (fun p =>
            (s.typeInfo p.2).bind (fun child =>
              Schema2.validate_inner s child (lookupField fields p.1) (path ++ "/" ++ p.1))))) ∧
    (∀ (s : Schema2.Schema) (props : List (String × Nat)) (it : Nat)
        (elems : List Value) (path : String),
        Schema2.validate_inner s ⟨.array, props, it⟩ (.array elems) path =
          (s.typeInfo it).bind (fun child =>
            Option.map List.flatten ((List.enumFrom 0 elems).mapM' (fun e =>
              Schema2.validate_inner s child e.2 (path ++ "/" ++ toString e.1))))) ∧
    Schema2.pipeline 10 docC5 valC5 =
      some ["/items/0: type mismatch, expected: string, actual: number",
            "/items/2: type mismatch, expected: string, actual: object"] := by
  refine ⟨?_, ?_, ?_⟩
  · intro s props it fields path
    rw [Schema2.validate_inner]
    simp [typeOf, Value.isNull, goProps_eq_mapM]
  · intro s props it elems path
    rw [Schema2.validate_inner]
    cases hti : s.typeInfo it with
    | none => simp [typeOf, Value.isNull, hti]
    | some child => simp [typeOf, Value.isNull, hti, goElems_eq_mapM]
  · have h : Schema2.translateTopF 10 docC5 =
        .ok { types := [ { type_ := .string, properties := [], items := Schema2.usizeMAX },
                         { type_ := .array, properties := [], items := 0 },
                         { type_ := .object, properties := [("items", 1)], items := Schema2.usizeMAX } ],
              root := 2 } := by rfl
    simp only [Schema2.pipeline, h]
    simp [Schema2.validate, Schema2.validate_inner, Schema2.goProps, Schema2.goElems,
      Schema2.Schema.typeInfo, lookupField, lookupA, typeOf, Value.isNull, mismatchMsg,
      kindStr, valC5, Schema2.usizeMAX]
    exact ⟨rfl, rfl⟩

/-- C8: resolution is a pure function of the document: two resolutions of
the same document give arenas of the same length, the same root, and
identical nodes at every index. -/
theorem claim8_resolution_deterministic :
    ∀ (doc : Schema2.SourceTypeInfo) (f : Nat) (s1 s2 : Schema2.Schema),
      Schema2.translateTopF f doc = .ok s1 → Schema2.translateTopF f doc = .ok s2 →
      s1.types.length = s2.types.length ∧ s1.root = s2.root ∧
        ∀ i : Nat, s1.types[i]? = s2.types[i]? := by
  intro doc f s1 s2 h1 h2
  rw [h1] at h2
  cases h2
  exact ⟨rfl, rfl, fun _ => rfl⟩

/-- Witness for C8 at the person document. -/
theorem claim8_witness :
    personSchema.types[0]? = personSchema.types[0]? :=
  (claim8_resolution_deterministic personDoc 20 personSchema personSchema
    (by rfl) (by rfl)).2.2 0

/-- C10: an array node whose source had no items carries the usizeMAX
sentinel, and validating any array value against an array node whose items
index is out of range of the arena is a panic (modelled none), not an error
list; likewise schema1's validator unwraps a None items.  So validation is
total only when every array node has a present items child. -/
theorem claim10_array_requires_items :
    (∀ (f : Nat) (defs : List (String × Schema2.SourceTypeInfo))
        (tx tx2 : Schema2.Translator) (src : Schema2.SourceTypeInfo)
        (t : Schema2.TypeInfo),
        src.items = none → Schema2.translateF (f + 1) defs tx src = .ok (tx2, t) →
        t.items = Schema2.usizeMAX) ∧
    (∀ (s : Schema2.Schema) (t : Schema2.TypeInfo) (elems : List Value) (path : String),
        t.type_ = .array → s.types.length ≤ t.items →
        Schema2.validate_inner s t (.array elems) path = none) ∧
    (∀ (props : List (String × Schema1.TypeInfo)) (elems : List Value) (path : String),
        Schema1.validate_inner (.mk .array props none) (.array elems) path = none) := by
  refine ⟨?_, ?_, ?_⟩
  · intro f defs tx tx2 src t hit h
    rw [Schema2.translateF, hit] at h
    cases hp : Schema2.propsF f defs tx src.properties with
    | error e => simp [hp] at h
    | ok p =>
      obtain ⟨tx3, ps⟩ := p
      simp [hp] at h
      rw [← h.2]
  · intro s t elems path hty hlen
    rw [Schema2.validate_inner]
    have hti : s.typeInfo t.items = none := by
      simp [Schema2.Schema.typeInfo, List.getElem?_eq_none hlen]
    simp [Value.isNull, typeOf, hty, hti]
  · intro props elems path
    rw [Schema1.validate_inner]
    simp [Value.isNull, typeOf, Schema1.TypeInfo.type_, Schema1.TypeInfo.items]

/-- Witness for C10: the sentinel of a translated items-free node, and the
panic on an array value against an array node with an out-of-range items
index, at concrete inputs. -/
theorem claim10_witness :
    ({ type_ := Ty.null, properties := [], items := Schema2.usizeMAX } :
        Schema2.TypeInfo).items = Schema2.usizeMAX ∧
    Schema2.validate_inner { types := [], root := 0 }
      { type_ := .array, properties := [], items := Schema2.usizeMAX }
      (.array [.number 1]) "" = none ∧
    Schema1.validate_inner (.mk .array [] none) (.array [.number 1]) "" = none := by
  refine ⟨?_, ?_, ?_⟩
  · exact claim10_array_requires_items.1 1 [] { resolved := [], types := [] }
      { resolved := [], types := [] } (.mk .null [] none "" [])
      { type_ := .null, properties := [], items := Schema2.usizeMAX } rfl (by rfl)
  · exact claim10_array_requires_items.2.1 { types := [], root := 0 }
      { type_ := .array, properties := [], items := Schema2.usizeMAX }
      [.number 1] "" rfl (Nat.zero_le _)
  · exact claim10_array_requires_items.2.2 [] [.number 1] ""

/-- Entries of the resolved table are never overwritten: any reference name
already mapped to an index keeps exactly that index through any later
resolution step.  This is the never-changes half of the
placeholder-then-backfill argument. -/
theorem resolved_stable :
    ∀ f : Nat,
      (∀ defs tx src tx2 i, Schema2.resolveF f defs tx src = .ok (tx2, i) →
        ∀ r j, lookupA tx.resolved r = some j → lookupA tx2.resolved r = some j) ∧
      (∀ defs tx src tx2 t, Schema2.translateF f defs tx src = .ok (tx2, t) →
        ∀ r j, lookupA tx.resolved r = some j → lookupA tx2.resolved r = some j) ∧
      (∀ defs tx l tx2 ps, Schema2.propsF f defs tx l = .ok (tx2, ps) →
        ∀ r j, lookupA tx.resolved r = some j → lookupA tx2.resolved r = some j) := by
  intro f
  induction f with
  | zero =>
    refine ⟨?_, ?_, ?_⟩ <;> intro defs tx a tx2 b h <;> simp [Schema2.resolveF,
      Schema2.translateF, Schema2.propsF] at h
  | succ f ih =>
    obtain ⟨ihR, ihT, ihP⟩ := ih
    refine ⟨?_, ?_, ?_⟩
    · intro defs tx src tx2 i h r j hr
      rw [Schema2.resolveF] at h
      split at h
      · -- inline node
        split at h
        · simp at h
        · rename_i tx1 t heq
          simp at h
          obtain ⟨h1, _⟩ := h
          rw [← h1]
          exact ihT defs tx src tx1 t heq r j hr
      · -- reference node
        split at h
        · rename_i idx heq
          simp at h
          obtain ⟨h1, _⟩ := h
          rw [← h1]
          exact hr
        · rename_i heq
          split at h
          · split at h
            · rename_i body hbody
              dsimp only [] at h
              split at h
              · simp at h
              · rename_i tx3 t heq3
                simp at h
                obtain ⟨h1, _⟩ := h
                rw [← h1]
                have hr1 : lookupA ((src.ref_, tx.types.length) :: tx.resolved) r = some j := by
                  have hne : src.ref_ ≠ r := by
                    intro hcon
                    rw [hcon, hr] at heq
                    cases heq
                  simp [lookupA, hne]
                  exact hr
                exact ihT defs _ body tx3 t heq3 r j hr1
            · simp at h
          · simp at h
    · intro defs tx src tx2 t h r j hr
      rw [Schema2.translateF] at h
      split at h
      · simp at h
      · rename_i tx1 itemsIdx heq1
        have hr1 : lookupA tx1.resolved r = some j := by
          rcases hit : src.items with _ | it
          · rw [hit] at heq1
            simp at heq1
            rw [← heq1.1]
            exact hr
          · rw [hit] at heq1
            exact ihR defs tx it tx1 itemsIdx heq1 r j hr
        split at h
        · simp at h
        · rename_i tx3 ps heq3
          simp at h
          obtain ⟨h1, _⟩ := h
          rw [← h1]
          exact ihP defs tx1 src.properties tx3 ps heq3 r j hr1
    · intro defs tx l tx2 ps h r j hr
      cases l with
      | nil =>
        rw [Schema2.propsF] at h
        simp at h
        obtain ⟨h1, _⟩ := h
        rw [← h1]
        exact hr
      | cons p rest =>
        obtain ⟨k, v⟩ := p
        rw [Schema2.propsF] at h
        split at h
        · simp at h
        · rename_i tx1 i heq1
          split at h
          · simp at h
          · rename_i tx3 ps1 heq3
            simp at h
            obtain ⟨h1, _⟩ := h
            rw [← h1]
            exact ihP defs tx1 rest tx3 ps1 heq3 r j
              (ihR defs tx v tx1 i heq1 r j hr)

/-- Adding fuel never changes an outcome that was not a fuel exhaustion. -/
theorem fuel_mono :
    ∀ f : Nat,
      (∀ defs tx src, Schema2.resolveF f defs tx src ≠ .error .fuel →
        Schema2.resolveF (f + 1) defs tx src = Schema2.resolveF f defs tx src) ∧
      (∀ defs tx src, Schema2.translateF f defs tx src ≠ .error .fuel →
        Schema2.translateF (f + 1) defs tx src = Schema2.translateF f defs tx src) ∧
      (∀ defs tx l, Schema2.propsF f defs tx l ≠ .error .fuel →
        Schema2.propsF (f + 1) defs tx l = Schema2.propsF f defs tx l) := by
  intro f
  induction f with
  | zero =>
    refine ⟨?_, ?_, ?_⟩ <;> intro defs tx a h <;>
      simp [Schema2.resolveF, Schema2.translateF, Schema2.propsF] at h
  | succ f ih =>
    obtain ⟨ihR, ihT, ihP⟩ := ih
    refine ⟨?_, ?_, ?_⟩
    · intro defs tx src hne
      by_cases he : src.ref_ = ""
      · simp only [Schema2.resolveF, if_pos he] at hne ⊢
        cases ht : Schema2.translateF f defs tx src with
        | error e =>
          cases e with
          | fuel =>
            rw [ht] at hne
            simp at hne
          | badRef => rw [ihT defs tx src (by rw [ht]; simp), ht]
        | ok p => rw [ihT defs tx src (by rw [ht]; simp), ht]
      · simp only [Schema2.resolveF, if_neg he] at hne ⊢
        cases hl : lookupA tx.resolved src.ref_ with
        | some idx => rfl
        | none =>
          rw [hl] at hne
          dsimp only [] at hne ⊢
          by_cases hsw : Schema2.strStartsWith src.ref_ Schema2.refPfx = true
          · simp only [if_pos hsw] at hne ⊢
            cases hb : lookupA defs (Schema2.strDrop src.ref_ Schema2.refPfx.length) with
            | none => rfl
            | some body =>
              rw [hb] at hne
              dsimp only [] at hne ⊢
              cases ht : Schema2.translateF f defs
                  { resolved := (src.ref_, tx.types.length) :: tx.resolved,
                    types := tx.types ++ [Schema2.TypeInfo.default] } body with
              | error e =>
                cases e with
                | fuel =>
                  rw [ht] at hne
                  simp at hne
                | badRef => rw [ihT _ _ _ (by rw [ht]; simp), ht]
              | ok p => rw [ihT _ _ _ (by rw [ht]; simp), ht]
          · simp only [if_neg hsw] at hne ⊢
    · intro defs tx src hne
      rw [Schema2.translateF] at hne
      rw [Schema2.translateF, Schema2.translateF]
      rcases hit : src.items with _ | it
      · rw [hit] at hne
        dsimp only [] at hne ⊢
        cases hp : Schema2.propsF f defs tx src.properties with
        | error e =>
          cases e with
          | fuel =>
            rw [hp] at hne
            simp at hne
          | badRef => rw [ihP _ _ _ (by rw [hp]; simp), hp]
        | ok p => rw [ihP _ _ _ (by rw [hp]; simp), hp]
      · rw [hit] at hne
        dsimp only [] at hne ⊢
        cases hr : Schema2.resolveF f defs tx it with
        | error e =>
          cases e with
          | fuel =>
            rw [hr] at hne
            simp at hne
          | badRef =>
            rw [ihR _ _ _ (by rw [hr]; simp), hr]
        | ok p =>
          obtain ⟨tx1, itemsIdx⟩ := p
          rw [hr] at hne
          rw [ihR _ _ _ (by rw [hr]; simp), hr]
          dsimp only [] at hne ⊢
          cases hp : Schema2.propsF f defs tx1 src.properties with
          | error e =>
            cases e with
            | fuel =>
              rw [hp] at hne
              simp at hne
            | badRef => rw [ihP _ _ _ (by rw [hp]; simp), hp]
          | ok q => rw [ihP _ _ _ (by rw [hp]; simp), hp]
    · intro defs tx l hne
      cases l with
      | nil => rw [Schema2.propsF, Schema2.propsF]
      | cons p rest =>
        obtain ⟨k, v⟩ := p
        rw [Schema2.propsF] at hne
        rw [Schema2.propsF, Schema2.propsF]
        cases hr : Schema2.resolveF f defs tx v with
        | error e =>
          cases e with
          | fuel =>
            rw [hr] at hne
            simp at hne
          | badRef => rw [ihR _ _ _ (by rw [hr]; simp), hr]
        | ok q =>
          obtain ⟨tx1, i⟩ := q
          rw [hr] at hne
          rw [ihR _ _ _ (by rw [hr]; simp), hr]
          dsimp only [] at hne ⊢
          cases hp : Schema2.propsF f defs tx1 rest with
          | error e =>
            cases e with
            | fuel =>
              rw [hp] at hne
              simp at hne
            | badRef => rw [ihP _ _ _ (by rw [hp]; simp), hp]
          | ok q2 => rw [ihP _ _ _ (by rw [hp]; simp), hp]

/-- Strict count decrease: if the list contains an element satisfying p but
not q, and q implies p on the list, then q counts strictly fewer. -/
theorem countP_lt_of_mem {α : Type} {l : List α} {p q : α → Bool} {x : α}
    (hx : x ∈ l) (hpx : p x = true) (hqx : q x = false)
    (himp : ∀ a ∈ l, q a = true → p a = true) :
    l.countP q < l.countP p := by
  induction l with
  | nil => cases hx
  | cons a rest ih =>
    rcases List.mem_cons.mp hx with rfl | hx
    · have hle : rest.countP q ≤ rest.countP p :=
        List.countP_mono_left (fun b hb => himp b (List.mem_cons_of_mem _ hb))
      rw [List.countP_cons, List.countP_cons, hpx, hqx]
      simp
      omega
    · have hlt := ih hx (fun b hb => himp b (List.mem_cons_of_mem _ hb))
      rw [List.countP_cons, List.countP_cons]
      rcases hqa : q a with _ | _
      · simp
        omega
      · rw [himp a (List.mem_cons_self a rest) hqa]
        simp
        omega

/-- A successful association-list lookup exhibits a member pair. -/
theorem lookupA_mem {α : Type} {l : List (String × α)} {key : String} {v : α}
    (h : lookupA l key = some v) : (key, v) ∈ l := by
  induction l with
  | nil => simp [lookupA] at h
  | cons p rest ih =>
    obtain ⟨k, w⟩ := p
    by_cases hk : k = key
    · rw [lookupA, if_pos hk] at h
      cases h
      rw [hk]
      exact List.mem_cons_self _ _
    · rw [lookupA, if_neg hk] at h
      exact List.mem_cons_of_mem _ (ih h)

/-- Prepending a binding can only turn lookups from failing to succeeding,
never the other way. -/
theorem lookupA_cons_none {α : Type} {l : List (String × α)} {k key : String}
    {w : α} (h : lookupA ((k, w) :: l) key = none) : lookupA l key = none := by
  by_cases hk : k = key
  · rw [lookupA, if_pos hk] at h
    cases h
  · rw [lookupA, if_neg hk] at h
    exact h

namespace Schema2

/-- Unfolding of sizeS through the projections. -/
theorem sizeS_eq (src : SourceTypeInfo) :
    sizeS src = 1 + (match src.items with | some it => sizeS it | none => 0) +
      sizePs src.properties := by
  obtain ⟨ty, props, items, r, ds⟩ := src
  cases items <;> simp [sizeS, SourceTypeInfo.items, SourceTypeInfo.properties]

/-- Every node has at least one unit of size. -/
theorem sizeS_pos (src : SourceTypeInfo) : 1 ≤ sizeS src := by
  rw [sizeS_eq src]
  omega

/-- Unfolding of sizePs on a cons cell. -/
theorem sizePs_cons (k : String) (v : SourceTypeInfo)
    (rest : List (String × SourceTypeInfo)) :
    sizePs ((k, v) :: rest) = 1 + sizeS v + sizePs rest := by
  simp [sizePs]

/-- Any definition body found by lookup is bounded by defsMax. -/
theorem defsMax_bound {defs : List (String × SourceTypeInfo)} {key : String}
    {body : SourceTypeInfo} (h : lookupA defs key = some body) :
    sizeS body ≤ defsMax defs := by
  induction defs with
  | nil => simp [lookupA] at h
  | cons p rest ih =>
    obtain ⟨k, w⟩ := p
    rw [defsMax, List.foldr_cons]
    by_cases hk : k = key
    · rw [lookupA, if_pos hk] at h
      cases h
      exact le_max_left _ _
    · rw [lookupA, if_neg hk] at h
      exact le_trans (ih h) (le_max_right _ _)

/-- A node's own reference string is among its reference strings. -/
theorem refsIn_self (src : SourceTypeInfo) : src.ref_ ∈ refsIn src := by
  obtain ⟨ty, props, items, r, ds⟩ := src
  cases items <;> simp [refsIn, SourceTypeInfo.ref_]

/-- References of the items child are references of the node. -/
theorem refsIn_items {src it : SourceTypeInfo} (h : src.items = some it) :
    refsIn it ⊆ refsIn src := by
  obtain ⟨ty, props, items, r, ds⟩ := src
  rw [SourceTypeInfo.items] at h
  cases h
  intro x hx
  simp [refsIn]
  right
  left
  exact hx

/-- References of the properties are references of the node. -/
theorem refsIn_props (src : SourceTypeInfo) :
    refsInPs src.properties ⊆ refsIn src := by
  obtain ⟨ty, props, items, r, ds⟩ := src
  intro x hx
  rw [SourceTypeInfo.properties] at hx
  cases items <;> simp [refsIn] <;> tauto

/-- References of the definitions mapping are references of the node. -/
theorem refsIn_ds (src : SourceTypeInfo) :
    refsInPs src.definitions ⊆ refsIn src := by
  obtain ⟨ty, props, items, r, ds⟩ := src
  intro x hx
  rw [SourceTypeInfo.definitions] at hx
  cases items <;> simp [refsIn] <;> tauto

/-- References of a member node are references of the list. -/
theorem refsInPs_mem {l : List (String × SourceTypeInfo)} {p : String × SourceTypeInfo}
    (hp : p ∈ l) : refsIn p.2 ⊆ refsInPs l := by
  induction l with
  | nil => cases hp
  | cons q rest ih =>
    obtain ⟨k, v⟩ := q
    intro x hx
    rcases List.mem_cons.mp hp with rfl | hp
    · simp [refsInPs]
      left
      exact hx
    · simp [refsInPs]
      right
      exact ih hp hx

/-- References of the head node are references of the list. -/
theorem refsInPs_head (k : String) (v : SourceTypeInfo)
    (rest : List (String × SourceTypeInfo)) :
    refsIn v ⊆ refsInPs ((k, v) :: rest) :=
  @refsInPs_mem ((k, v) :: rest) (k, v) (List.mem_cons_self _ _)

/-- References of the tail are references of the list. -/
theorem refsInPs_tail (k : String) (v : SourceTypeInfo)
    (rest : List (String × SourceTypeInfo)) :
    refsInPs rest ⊆ refsInPs ((k, v) :: rest) := by
  intro x hx
  simp [refsInPs]
  right
  exact hx

/-- Recording a fresh reference strictly decreases the number of
unresolved ambient references. -/
theorem UU_cons_lt {R : List String} {tx : Translator} {r : String}
    {idx : Nat} {T : List TypeInfo} (hmem : r ∈ R)
    (hnone : lookupA tx.resolved r = none) :
    UU R { resolved := (r, idx) :: tx.resolved, types := T } < UU R tx := by
  apply countP_lt_of_mem hmem
  · simp [hnone]
  · simp [lookupA]
  · intro a _ ha
    simp only [Option.isNone_iff_eq_none] at ha ⊢
    exact lookupA_cons_none ha

/-- A step that only preserves existing resolved entries cannot increase
the number of unresolved ambient references. -/
theorem UU_stable_le {R : List String} {tx tx2 : Translator}
    (h : ∀ r j, lookupA tx.resolved r = some j → lookupA tx2.resolved r = some j) :
    UU R tx2 ≤ UU R tx := by
  apply List.countP_mono_left
  intro x _ hx
  simp only [Option.isNone_iff_eq_none] at hx ⊢
  cases hl : lookupA tx.resolved x with
  | none => rfl
  | some j =>
    rw [h x j hl] at hx
    cases hx

end Schema2

/-- Core termination and success argument for the resolver: whenever the
fuel is at least the measure (which charges one block per not-yet-resolved
reference of the ambient list R plus the size of the node in hand), the
resolver cannot run out of fuel; and if moreover every reference it can
reach is well-formed, it succeeds. -/
theorem fuel_sufficient :
    ∀ f : Nat,
      (∀ (R : List String) defs tx src,
        (∀ p ∈ defs, Schema2.refsIn p.2 ⊆ R) → Schema2.refsIn src ⊆ R →
        Schema2.muR R defs tx src ≤ f →
        Schema2.resolveF f defs tx src ≠ .error .fuel ∧
        (Schema2.nodeRefsOk defs src = true → Schema2.defsOk defs = true →
          ∃ p, Schema2.resolveF f defs tx src = .ok p)) ∧
      (∀ (R : List String) defs tx src,
        (∀ p ∈ defs, Schema2.refsIn p.2 ⊆ R) → Schema2.refsIn src ⊆ R →
        Schema2.muT R defs tx src ≤ f →
        Schema2.translateF f defs tx src ≠ .error .fuel ∧
        (Schema2.bodyRefsOk defs src = true → Schema2.defsOk defs = true →
          ∃ p, Schema2.translateF f defs tx src = .ok p)) ∧
      (∀ (R : List String) defs tx l,
        (∀ p ∈ defs, Schema2.refsIn p.2 ⊆ R) → Schema2.refsInPs l ⊆ R →
        Schema2.muP R defs tx l ≤ f →
        Schema2.propsF f defs tx l ≠ .error .fuel ∧
        (Schema2.propsRefsOk defs l = true → Schema2.defsOk defs = true →
          ∃ p, Schema2.propsF f defs tx l = .ok p)) := by
  intro f
  induction f with
  | zero =>
    refine ⟨?_, ?_, ?_⟩ <;> intro R defs tx a _ _ hmu
    · have := Schema2.sizeS_pos a
      simp only [Schema2.muR] at hmu
      omega
    · have := Schema2.sizeS_pos a
      simp only [Schema2.muT] at hmu
      omega
    · simp only [Schema2.muP] at hmu
      omega
  | succ f ih =>
    obtain ⟨ihR, ihT, ihP⟩ := ih
    refine ⟨?_, ?_, ?_⟩
    · -- resolveF
      intro R defs tx src Hdefs Hsrc hmu
      by_cases he : src.ref_ = ""
      · have hmuT : Schema2.muT R defs tx src ≤ f := by
          simp only [Schema2.muR] at hmu
          simp only [Schema2.muT]
          omega
        obtain ⟨hT1, hT2⟩ := ihT R defs tx src Hdefs Hsrc hmuT
        constructor
        · simp only [Schema2.resolveF, if_pos he]
          cases ht : Schema2.translateF f defs tx src with
          | error e =>
            cases e with
            | fuel => exact absurd ht hT1
            | badRef => simp
          | ok p => simp
        · intro hok hdefsok
          rw [Schema2.nodeRefsOk, if_pos he] at hok
          obtain ⟨⟨tx1, t⟩, ht⟩ := hT2 hok hdefsok
          simp only [Schema2.resolveF, if_pos he]
          rw [ht]
          exact ⟨_, rfl⟩
      · cases hl : lookupA tx.resolved src.ref_ with
        | some idx =>
          constructor
          · simp only [Schema2.resolveF, if_neg he]
            rw [hl]
            simp
          · intro _ _
            simp only [Schema2.resolveF, if_neg he]
            rw [hl]
            exact ⟨_, rfl⟩
        | none =>
          by_cases hsw : Schema2.strStartsWith src.ref_ Schema2.refPfx = true
          · cases hb : lookupA defs (Schema2.strDrop src.ref_ Schema2.refPfx.length) with
            | none =>
              constructor
              · simp only [Schema2.resolveF, if_neg he]
                rw [hl]
                dsimp only []
                rw [if_pos hsw, hb]
                simp
              · intro hok _
                rw [Schema2.nodeRefsOk, if_neg he] at hok
                rw [hb] at hok
                simp [hsw] at hok
            | some body =>
              have hUlt : Schema2.UU R
                  { resolved := (src.ref_, tx.types.length) :: tx.resolved,
                    types := tx.types ++ [Schema2.TypeInfo.default] } < Schema2.UU R tx :=
                Schema2.UU_cons_lt (Hsrc (Schema2.refsIn_self src)) hl
              have hmul : Schema2.UU R
                  { resolved := (src.ref_, tx.types.length) :: tx.resolved,
                    types := tx.types ++ [Schema2.TypeInfo.default] } * Schema2.CC defs +
                    Schema2.CC defs ≤ Schema2.UU R tx * Schema2.CC defs := by
                have h1 : Schema2.UU R
                    { resolved := (src.ref_, tx.types.length) :: tx.resolved,
                      types := tx.types ++ [Schema2.TypeInfo.default] } + 1 ≤ Schema2.UU R tx :=
                  hUlt
                have h2 := Nat.mul_le_mul_right (Schema2.CC defs) h1
                rw [Nat.succ_mul] at h2
                exact h2
              have hCb : 2 * Schema2.sizeS body + 1 ≤ Schema2.CC defs := by
                have := Schema2.defsMax_bound hb
                rw [Schema2.CC]
                omega
              have hmuT : Schema2.muT R defs
                  { resolved := (src.ref_, tx.types.length) :: tx.resolved,
                    types := tx.types ++ [Schema2.TypeInfo.default] } body ≤ f := by
                have hs := Schema2.sizeS_pos src
                simp only [Schema2.muR] at hmu
                simp only [Schema2.muT]
                omega
              have hbodyR : Schema2.refsIn body ⊆ R := Hdefs _ (lookupA_mem hb)
              obtain ⟨hT1, hT2⟩ := ihT R defs
                { resolved := (src.ref_, tx.types.length) :: tx.resolved,
                  types := tx.types ++ [Schema2.TypeInfo.default] } body Hdefs hbodyR hmuT
              constructor
              · simp only [Schema2.resolveF, if_neg he]
                rw [hl]
                dsimp only []
                rw [if_pos hsw, hb]
                dsimp only []
                cases ht : Schema2.translateF f defs
                    { resolved := (src.ref_, tx.types.length) :: tx.resolved,
                      types := tx.types ++ [Schema2.TypeInfo.default] } body with
                | error e =>
                  cases e with
                  | fuel => exact absurd ht hT1
                  | badRef => simp
                | ok p => simp
              · intro _ hdefsok
                have hbodyOk : Schema2.bodyRefsOk defs body = true := by
                  simp only [Schema2.defsOk, List.all_eq_true] at hdefsok
                  exact hdefsok _ (lookupA_mem hb)
                obtain ⟨⟨tx2, t⟩, ht⟩ := hT2 hbodyOk hdefsok
                simp only [Schema2.resolveF, if_neg he]
                rw [hl]
                dsimp only []
                rw [if_pos hsw, hb]
                dsimp only []
                rw [ht]
                exact ⟨_, rfl⟩
          · constructor
            · simp only [Schema2.resolveF, if_neg he]
              rw [hl]
              dsimp only []
              rw [if_neg hsw]
              simp
            · intro hok _
              rw [Schema2.nodeRefsOk, if_neg he] at hok
              simp [hsw] at hok
    · -- translateF
      intro R defs tx src Hdefs Hsrc hmu
      obtain ⟨ty, props, items, r, ds⟩ := src
      have hprops : Schema2.refsInPs props ⊆ R := by
        intro x hx
        exact Hsrc (Schema2.refsIn_props (.mk ty props items r ds) hx)
      cases items with
      | none =>
        have hmuP : Schema2.muP R defs tx props ≤ f := by
          have hsz := Schema2.sizeS_eq (.mk ty props none r ds)
          simp only [Schema2.SourceTypeInfo.items, Schema2.SourceTypeInfo.properties] at hsz
          simp only [Schema2.muT] at hmu
          simp only [Schema2.muP]
          omega
        obtain ⟨hP1, hP2⟩ := ihP R defs tx props Hdefs hprops hmuP
        constructor
        · simp only [Schema2.translateF, Schema2.SourceTypeInfo.items,
            Schema2.SourceTypeInfo.properties]
          cases hp : Schema2.propsF f defs tx props with
          | error e =>
            cases e with
            | fuel => exact absurd hp hP1
            | badRef => simp
          | ok p => simp
        · intro hok hdefsok
          simp only [Schema2.bodyRefsOk] at hok
          obtain ⟨⟨tx2, ps⟩, hp⟩ := hP2 hok hdefsok
          simp only [Schema2.translateF, Schema2.SourceTypeInfo.items,
            Schema2.SourceTypeInfo.properties]
          rw [hp]
          exact ⟨_, rfl⟩
      | some it =>
        have hit : Schema2.refsIn it ⊆ R := by
          intro x hx
          exact Hsrc (@Schema2.refsIn_items (.mk ty props (some it) r ds) it
            (by rw [Schema2.SourceTypeInfo.items]) x hx)
        have hsz := Schema2.sizeS_eq (.mk ty props (some it) r ds)
        simp only [Schema2.SourceTypeInfo.items, Schema2.SourceTypeInfo.properties] at hsz
        have hmuR : Schema2.muR R defs tx it ≤ f := by
          simp only [Schema2.muT] at hmu
          simp only [Schema2.muR]
          omega
        obtain ⟨hR1, hR2⟩ := ihR R defs tx it Hdefs hit hmuR
        constructor
        · simp only [Schema2.translateF, Schema2.SourceTypeInfo.items,
            Schema2.SourceTypeInfo.properties]
          cases hr : Schema2.resolveF f defs tx it with
          | error e =>
            cases e with
            | fuel => exact absurd hr hR1
            | badRef => simp
          | ok p =>
            obtain ⟨tx1, ii⟩ := p
            dsimp only []
            have hUle : Schema2.UU R tx1 ≤ Schema2.UU R tx :=
              Schema2.UU_stable_le (fun q j hq => (resolved_stable f).1 defs tx it tx1 ii hr q j hq)
            have hmulle : Schema2.UU R tx1 * Schema2.CC defs ≤ Schema2.UU R tx * Schema2.CC defs :=
              Nat.mul_le_mul_right _ hUle
            have hmuP : Schema2.muP R defs tx1 props ≤ f := by
              simp only [Schema2.muT] at hmu
              simp only [Schema2.muP]
              omega
            obtain ⟨hP1, hP2⟩ := ihP R defs tx1 props Hdefs hprops hmuP
            cases hp : Schema2.propsF f defs tx1 props with
            | error e =>
              cases e with
              | fuel => exact absurd hp hP1
              | badRef => simp
            | ok q => simp
        · intro hok hdefsok
          simp only [Schema2.bodyRefsOk, Bool.and_eq_true] at hok
          obtain ⟨hokIt, hokProps⟩ := hok
          obtain ⟨⟨tx1, ii⟩, hr⟩ := hR2 hokIt hdefsok
          have hUle : Schema2.UU R tx1 ≤ Schema2.UU R tx :=
            Schema2.UU_stable_le (fun q j hq => (resolved_stable f).1 defs tx it tx1 ii hr q j hq)
          have hmulle : Schema2.UU R tx1 * Schema2.CC defs ≤ Schema2.UU R tx * Schema2.CC defs :=
            Nat.mul_le_mul_right _ hUle
          have hmuP : Schema2.muP R defs tx1 props ≤ f := by
            simp only [Schema2.muT] at hmu
            simp only [Schema2.muP]
            omega
          obtain ⟨hP1, hP2⟩ := ihP R defs tx1 props Hdefs hprops hmuP
          obtain ⟨⟨tx2, ps⟩, hp⟩ := hP2 hokProps hdefsok
          simp only [Schema2.translateF, Schema2.SourceTypeInfo.items,
            Schema2.SourceTypeInfo.properties]
          rw [hr]
          dsimp only []
          rw [hp]
          exact ⟨_, rfl⟩
    · -- propsF
      intro R defs tx l Hdefs Hl hmu
      cases l with
      | nil =>
        constructor
        · simp [Schema2.propsF]
        · intro _ _
          exact ⟨_, rfl⟩
      | cons p rest =>
        obtain ⟨k, v⟩ := p
        have hv : Schema2.refsIn v ⊆ R := fun x hx => Hl (Schema2.refsInPs_head k v rest hx)
        have hrest : Schema2.refsInPs rest ⊆ R := fun x hx => Hl (Schema2.refsInPs_tail k v rest hx)
        have hszc := Schema2.sizePs_cons k v rest
        have hmuR : Schema2.muR R defs tx v ≤ f := by
          simp only [Schema2.muP] at hmu
          simp only [Schema2.muR]
          omega
        obtain ⟨hR1, hR2⟩ := ihR R defs tx v Hdefs hv hmuR
        constructor
        · rw [Schema2.propsF]
          cases hr : Schema2.resolveF f defs tx v with
          | error e =>
            cases e with
            | fuel => exact absurd hr hR1
            | badRef => simp
          | ok q =>
            obtain ⟨tx1, i⟩ := q
            dsimp only []
            have hUle : Schema2.UU R tx1 ≤ Schema2.UU R tx :=
              Schema2.UU_stable_le (fun w j hw => (resolved_stable f).1 defs tx v tx1 i hr w j hw)
            have hmulle : Schema2.UU R tx1 * Schema2.CC defs ≤ Schema2.UU R tx * Schema2.CC defs :=
              Nat.mul_le_mul_right _ hUle
            have hmuP : Schema2.muP R defs tx1 rest ≤ f := by
              have hsv := Schema2.sizeS_pos v
              simp only [Schema2.muP] at hmu ⊢
              omega
            obtain ⟨hP1, hP2⟩ := ihP R defs tx1 rest Hdefs hrest hmuP
            cases hp : Schema2.propsF f defs tx1 rest with
            | error e =>
              cases e with
              | fuel => exact absurd hp hP1
              | badRef => simp
            | ok q2 => simp
        · intro hok hdefsok
          simp only [Schema2.propsRefsOk, Bool.and_eq_true] at hok
          obtain ⟨hokV, hokRest⟩ := hok
          obtain ⟨⟨tx1, i⟩, hr⟩ := hR2 hokV hdefsok
          have hUle : Schema2.UU R tx1 ≤ Schema2.UU R tx :=
            Schema2.UU_stable_le (fun w j hw => (resolved_stable f).1 defs tx v tx1 i hr w j hw)
          have hmulle : Schema2.UU R tx1 * Schema2.CC defs ≤ Schema2.UU R tx * Schema2.CC defs :=
            Nat.mul_le_mul_right _ hUle
          have hmuP : Schema2.muP R defs tx1 rest ≤ f := by
            have hsv := Schema2.sizeS_pos v
            simp only [Schema2.muP] at hmu ⊢
            omega
          obtain ⟨hP1, hP2⟩ := ihP R defs tx1 rest Hdefs hrest hmuP
          obtain ⟨⟨tx2, ps⟩, hp⟩ := hP2 hokRest hdefsok
          rw [Schema2.propsF]
          rw [hr]
          dsimp only []
          rw [hp]
          exact ⟨_, rfl⟩

/-- Any fuel at least as large as a sufficient one gives the same result. -/
theorem resolveF_mono_le {f g : Nat} (hfg : f ≤ g)
    (defs : List (String × Schema2.SourceTypeInfo)) (tx : Schema2.Translator)
    (src : Schema2.SourceTypeInfo)
    (h : Schema2.resolveF f defs tx src ≠ .error .fuel) :
    Schema2.resolveF g defs tx src = Schema2.resolveF f defs tx src := by
  induction g, hfg using Nat.le_induction with
  | base => rfl
  | succ g hfg ih =>
    have hg : Schema2.resolveF g defs tx src ≠ .error .fuel := by
      rw [ih]
      exact h
    rw [(fuel_mono g).1 defs tx src hg, ih]

/-- C2: resolution terminates on every document (there is a fuel bound past
which the fueled resolver's answer is stable and is never a fuel
exhaustion, even for self-referential or mutually referential definitions);
a reference resolved to index i is recorded in the resolved table at exactly
i, recorded entries never change afterwards, and a second occurrence of the
same reference string therefore resolves to the identical arena index. -/
theorem claim2_resolution_terminates_and_shares :
    (∀ src : Schema2.SourceTypeInfo, ∃ f : Nat,
        Schema2.resolveF f src.definitions { resolved := [], types := [] } src ≠
          .error .fuel ∧
        ∀ g, f ≤ g →
          Schema2.resolveF g src.definitions { resolved := [], types := [] } src =
            Schema2.resolveF f src.definitions { resolved := [], types := [] } src) ∧
    (∀ f defs tx src tx1 i1, Schema2.resolveF f defs tx src = .ok (tx1, i1) →
        src.ref_ ≠ "" → lookupA tx1.resolved src.ref_ = some i1) ∧
    (∀ f defs tx src tx1 i1 r j, Schema2.resolveF f defs tx src = .ok (tx1, i1) →
        lookupA tx.resolved r = some j → lookupA tx1.resolved r = some j) ∧
    (∀ f g defs tx src1 src2 tx1 i1 tx2 i2,
        Schema2.resolveF f defs tx src1 = .ok (tx1, i1) →
        Schema2.resolveF g defs tx1 src2 = .ok (tx2, i2) →
        src1.ref_ ≠ "" → src2.ref_ = src1.ref_ → i2 = i1) := by
  have lookup_after : ∀ f defs tx src tx1 i1,
      Schema2.resolveF f defs tx src = .ok (tx1, i1) →
      src.ref_ ≠ "" → lookupA tx1.resolved src.ref_ = some i1 := by
    intro f defs tx src tx1 i1 h he
    cases f with
    | zero => simp [Schema2.resolveF] at h
    | succ f =>
      rw [Schema2.resolveF, if_neg he] at h
      cases hl : lookupA tx.resolved src.ref_ with
      | some idx =>
        rw [hl] at h
        simp at h
        rw [← h.1, hl, h.2]
      | none =>
        rw [hl] at h
        dsimp only [] at h
        split at h
        · split at h
          · rename_i body hb
            split at h
            · simp at h
            · rename_i tx2 t ht
              simp at h
              obtain ⟨h1, h2⟩ := h
              rw [← h1]
              have hmid : lookupA ((src.ref_, tx.types.length) :: tx.resolved)
                  src.ref_ = some tx.types.length := by
                simp [lookupA]
              have := (resolved_stable f).2.1 defs _ body tx2 t ht src.ref_
                tx.types.length hmid
              rw [← h2]
              exact this
          · simp at h
        · simp at h
  refine ⟨?_, lookup_after, ?_, ?_⟩
  · intro src
    refine ⟨Schema2.muR (Schema2.refsIn src) src.definitions
      { resolved := [], types := [] } src, ?_, ?_⟩
    · exact ((fuel_sufficient _).1 (Schema2.refsIn src) src.definitions
        { resolved := [], types := [] } src
        (fun p hp x hx => Schema2.refsIn_ds src (Schema2.refsInPs_mem hp hx))
        (fun x hx => hx) (le_refl _)).1
    · intro g hg
      exact resolveF_mono_le hg _ _ _
        ((fuel_sufficient _).1 (Schema2.refsIn src) src.definitions
          { resolved := [], types := [] } src
          (fun p hp x hx => Schema2.refsIn_ds src (Schema2.refsInPs_mem hp hx))
          (fun x hx => hx) (le_refl _)).1
  · intro f defs tx src tx1 i1 r j h hr
    exact (resolved_stable f).1 defs tx src tx1 i1 h r j hr
  · intro f g defs tx src1 src2 tx1 i1 tx2 i2 h1 h2 hne heq
    have hl1 : lookupA tx1.resolved src2.ref_ = some i1 := by
      rw [heq]
      exact lookup_after f defs tx src1 tx1 i1 h1 hne
    cases g with
    | zero => simp [Schema2.resolveF] at h2
    | succ g =>
      have hne2 : src2.ref_ ≠ "" := by
        rw [heq]
        exact hne
      rw [Schema2.resolveF, if_neg hne2, hl1] at h2
      simp at h2
      exact h2.2.symm

/-- Witness for C2 at the person document: the self-reference is recorded at
index 0, and a second resolution of the same reference string yields the
same index. -/
theorem claim2_witness :
    lookupA [("#/definitions/person", (0 : Nat))] "#/definitions/person" = some 0 ∧
    (0 : Nat) = 0 := by
  constructor
  · have h := claim2_resolution_terminates_and_shares.2.1 20 personDoc.definitions
      { resolved := [], types := [] } personDoc
      { resolved := [("#/definitions/person", 0)], types := personSchema.types } 0
      (by rfl) (by decide)
    simpa [personDoc, Schema2.SourceTypeInfo.ref_] using h
  · exact claim2_resolution_terminates_and_shares.2.2.2 20 5 personDoc.definitions
      { resolved := [], types := [] } personDoc
      (.mk .null [] none "#/definitions/person" [])
      { resolved := [("#/definitions/person", 0)], types := personSchema.types } 0
      { resolved := [("#/definitions/person", 0)], types := personSchema.types } 0
      (by rfl) (by rfl) (by decide) (by rfl)

/-- Counterexample for C7 as stated: docC7 contains the reference string
oops, which does not start with the required prefix form, inside a
definition that nothing references; resolution nevertheless succeeds
instead of aborting. -/
theorem claim7_counterexample :
    docC7.definitions = [("a", .mk .null [] none "oops" [])] ∧
    Schema2.strStartsWith "oops" Schema2.refPfx = false ∧
    Schema2.translateTopF 3 docC7 =
      .ok { types := [{ type_ := .null, properties := [], items := Schema2.usizeMAX }],
            root := 0 } := by
  refine ⟨rfl, by decide, by rfl⟩

/-- C7 amended: a malformed or unresolvable reference aborts resolution
with the fatal badRef outcome when the resolver actually reaches it (its
string not already recorded); and when every reference reachable during
resolution (the document node itself and all children of definition bodies)
is well-formed and resolvable, resolution succeeds for some fuel.  A bad
reference in a position resolution never visits (such as an unreferenced
definition, as in claim7_counterexample) does not abort. -/
theorem claim7_amended :
    (∀ (f : Nat) (defs : List (String × Schema2.SourceTypeInfo))
        (tx : Schema2.Translator) (src : Schema2.SourceTypeInfo),
        src.ref_ ≠ "" → lookupA tx.resolved src.ref_ = none →
        (Schema2.strStartsWith src.ref_ Schema2.refPfx = false ∨
          lookupA defs (Schema2.strDrop src.ref_ Schema2.refPfx.length) = none) →
        Schema2.resolveF (f + 1) defs tx src = .error .badRef) ∧
    (∀ src : Schema2.SourceTypeInfo,
        Schema2.nodeRefsOk src.definitions src = true →
        Schema2.defsOk src.definitions = true →
        ∃ f s, Schema2.translateTopF f src = .ok s) := by
  constructor
  · intro f defs tx src he hl hbad
    rw [Schema2.resolveF, if_neg he, hl]
    dsimp only []
    rcases hbad with hsw | hb
    · simp [hsw]
    · cases hsw : Schema2.strStartsWith src.ref_ Schema2.refPfx with
      | false => simp
      | true =>
        rw [if_pos rfl, hb]
  · intro src hok hdefsok
    obtain ⟨⟨tx1, root⟩, h⟩ := ((fuel_sufficient
        (Schema2.muR (Schema2.refsIn src) src.definitions
          { resolved := [], types := [] } src)).1
      (Schema2.refsIn src) src.definitions { resolved := [], types := [] } src
      (fun p hp x hx => Schema2.refsIn_ds src (Schema2.refsInPs_mem hp hx))
      (fun x hx => hx) (le_refl _)).2 hok hdefsok
    refine ⟨Schema2.muR (Schema2.refsIn src) src.definitions
      { resolved := [], types := [] } src, { types := tx1.types, root := root }, ?_⟩
    rw [Schema2.translateTopF, h]

/-- Witness for C7 amended: reaching the malformed reference oops at the
document root aborts, and the well-formed person document resolves. -/
theorem claim7_witness :
    Schema2.resolveF 1 [] { resolved := [], types := [] }
      (.mk .null [] none "oops" []) = .error .badRef ∧
    ∃ f s, Schema2.translateTopF f personDoc = .ok s := by
  constructor
  · exact claim7_amended.1 0 [] { resolved := [], types := [] }
      (.mk .null [] none "oops" []) (by decide) (by rfl) (.inl (by decide))
  · refine claim7_amended.2 personDoc ?_ ?_
    · simp [Schema2.nodeRefsOk, Schema2.bodyRefsOk, Schema2.propsRefsOk, personDoc,
        personDef, lookupA, Schema2.strStartsWith, Schema2.strDrop, Schema2.refPfx,
        Schema2.SourceTypeInfo.ref_, Schema2.SourceTypeInfo.definitions]
      decide
    · simp [Schema2.defsOk, Schema2.nodeRefsOk, Schema2.bodyRefsOk, Schema2.propsRefsOk,
        personDoc, personDef, lookupA, Schema2.strStartsWith, Schema2.strDrop,
        Schema2.refPfx, Schema2.SourceTypeInfo.ref_, Schema2.SourceTypeInfo.definitions]
      decide

/-- Node well-formedness is monotone in the arena length. -/
theorem nodeOk_mono {n m : Nat} {t : Schema2.TypeInfo} (hnm : n ≤ m)
    (h : Schema2.nodeOk n t) : Schema2.nodeOk m t := by
  obtain ⟨h1, h2⟩ := h
  refine ⟨fun p hp => lt_of_lt_of_le (h1 p hp) hnm, ?_⟩
  rcases h2 with h2 | h2
  · exact .inl h2
  · exact .inr (lt_of_lt_of_le h2 hnm)

/-- The translator invariant (all recorded indices and all stored child
indices point into the arena) is preserved by every resolution step; the
returned index is always in range and the arena only grows. -/
theorem inv_preserved :
    ∀ f : Nat,
      (∀ defs tx src tx2 i, Schema2.TxInv tx →
        Schema2.resolveF f defs tx src = .ok (tx2, i) →
        Schema2.TxInv tx2 ∧ i < tx2.types.length ∧
          tx.types.length ≤ tx2.types.length) ∧
      (∀ defs tx src tx2 t, Schema2.TxInv tx →
        Schema2.translateF f defs tx src = .ok (tx2, t) →
        Schema2.TxInv tx2 ∧ Schema2.nodeOk tx2.types.length t ∧
          tx.types.length ≤ tx2.types.length) ∧
      (∀ defs tx l tx2 ps, Schema2.TxInv tx →
        Schema2.propsF f defs tx l = .ok (tx2, ps) →
        Schema2.TxInv tx2 ∧ (∀ p ∈ ps, p.2 < tx2.types.length) ∧
          tx.types.length ≤ tx2.types.length) := by
  intro f
  induction f with
  | zero =>
    refine ⟨?_, ?_, ?_⟩ <;> intro defs tx a tx2 b _ h <;>
      simp [Schema2.resolveF, Schema2.translateF, Schema2.propsF] at h
  | succ f ih =>
    obtain ⟨ihR, ihT, ihP⟩ := ih
    refine ⟨?_, ?_, ?_⟩
    · intro defs tx src tx2 i hinv h
      rw [Schema2.resolveF] at h
      split at h
      · split at h
        · simp at h
        · rename_i tx1 t heq
          simp at h
          obtain ⟨h1, h2⟩ := h
          obtain ⟨hinv1, hnode, hle⟩ := ihT defs tx src tx1 t hinv heq
          subst h1
          subst h2
          refine ⟨⟨?_, ?_⟩, ?_, ?_⟩
          · intro p hp
            simp only [List.length_append, List.length_cons, List.length_nil]
            exact lt_of_lt_of_le (hinv1.1 p hp) (by omega)
          · intro t' ht'
            simp only [List.length_append, List.length_cons, List.length_nil]
            rcases List.mem_append.mp ht' with hmem | hmem
            · exact nodeOk_mono (by omega) (hinv1.2 t' hmem)
            · rw [List.mem_singleton.mp hmem]
              exact nodeOk_mono (by omega) hnode
          · simp
          · simp only [List.length_append, List.length_cons, List.length_nil]
            omega
      · split at h
        · rename_i idx heq
          simp at h
          obtain ⟨h1, h2⟩ := h
          subst h1
          subst h2
          exact ⟨hinv, hinv.1 _ (lookupA_mem heq), le_refl _⟩
        · rename_i heq
          split at h
          · split at h
            · rename_i body hb
              dsimp only [] at h
              split at h
              · simp at h
              · rename_i tx3 t heq3
                simp at h
                obtain ⟨h1, h2⟩ := h
                have hmidinv : Schema2.TxInv
                    { resolved := (src.ref_, tx.types.length) :: tx.resolved,
                      types := tx.types ++ [Schema2.TypeInfo.default] } := by
                  constructor
                  · intro p hp
                    simp only [List.length_append, List.length_cons, List.length_nil]
                    rcases List.mem_cons.mp hp with rfl | hp
                    · simp
                    · exact lt_of_lt_of_le (hinv.1 p hp) (by omega)
                  · intro t' ht'
                    simp only [List.length_append, List.length_cons, List.length_nil]
                    rcases List.mem_append.mp ht' with hmem | hmem
                    · exact nodeOk_mono (by omega) (hinv.2 t' hmem)
                    · rw [List.mem_singleton.mp hmem]
                      refine ⟨by simp [Schema2.TypeInfo.default], .inr ?_⟩
                      simp [Schema2.TypeInfo.default]
                obtain ⟨hinv3, hnode, hle3⟩ := ihT defs _ body tx3 t hmidinv heq3
                simp only [List.length_append, List.length_cons, List.length_nil] at hle3
                subst h1
                subst h2
                refine ⟨⟨?_, ?_⟩, ?_, ?_⟩
                · intro p hp
                  simp only [List.length_set]
                  exact hinv3.1 p hp
                · intro t' ht'
                  simp only [List.length_set]
                  rcases List.mem_or_eq_of_mem_set ht' with hmem | hmem
                  · exact hinv3.2 t' hmem
                  · rw [hmem]
                    exact hnode
                · simp only [List.length_set]
                  omega
                · simp only [List.length_set]
                  omega
            · simp at h
          · simp at h
    · intro defs tx src tx2 t hinv h
      rw [Schema2.translateF] at h
      split at h
      · simp at h
      · rename_i tx1 itemsIdx heq1
        split at h
        · simp at h
        · rename_i tx3 ps heq3
          simp at h
          obtain ⟨h1, h2⟩ := h
          subst h1
          have hstep1 : Schema2.TxInv tx1 ∧
              (itemsIdx = Schema2.usizeMAX ∨ itemsIdx < tx1.types.length) ∧
              tx.types.length ≤ tx1.types.length := by
            rcases hit : src.items with _ | it
            · rw [hit] at heq1
              simp at heq1
              obtain ⟨hq1, hq2⟩ := heq1
              subst hq1
              exact ⟨hinv, .inl hq2.symm, le_refl _⟩
            · rw [hit] at heq1
              obtain ⟨hinv1, hlt, hle⟩ := ihR defs tx it tx1 itemsIdx hinv heq1
              exact ⟨hinv1, .inr hlt, hle⟩
          obtain ⟨hinv1, hitems, hle1⟩ := hstep1
          obtain ⟨hinv3, hbounds, hle3⟩ := ihP defs tx1 src.properties tx3 ps hinv1 heq3
          subst h2
          refine ⟨hinv3, ⟨hbounds, ?_⟩, le_trans hle1 hle3⟩
          rcases hitems with hmax | hlt
          · exact .inl hmax
          · exact .inr (lt_of_lt_of_le hlt hle3)
    · intro defs tx l tx2 ps hinv h
      cases l with
      | nil =>
        rw [Schema2.propsF] at h
        simp at h
        obtain ⟨h1, h2⟩ := h
        subst h1
        subst h2
        exact ⟨hinv, by simp, le_refl _⟩
      | cons p rest =>
        obtain ⟨k, v⟩ := p
        rw [Schema2.propsF] at h
        split at h
        · simp at h
        · rename_i tx1 i heq1
          split at h
          · simp at h
          · rename_i tx3 ps1 heq3
            simp at h
            obtain ⟨h1, h2⟩ := h
            obtain ⟨hinv1, hlt, hle1⟩ := ihR defs tx v tx1 i hinv heq1
            obtain ⟨hinv3, hbounds, hle3⟩ := ihP defs tx1 rest tx3 ps1 hinv1 heq3
            subst h1
            subst h2
            refine ⟨hinv3, ?_, le_trans hle1 hle3⟩
            intro q hq
            rcases List.mem_cons.mp hq with rfl | hq
            · exact lt_of_lt_of_le hlt hle3
            · exact hbounds q hq

/-- C6: in every resolved schema produced by the translator, every index
stored in any node's properties is a valid arena index, every items index
is either the absent sentinel or a valid arena index, and the root index is
valid (no dangling index). -/
theorem claim6_no_dangling_index :
    ∀ (f : Nat) (doc : Schema2.SourceTypeInfo) (s : Schema2.Schema),
      Schema2.translateTopF f doc = .ok s →
      (∀ t ∈ s.types, Schema2.nodeOk s.types.length t) ∧
        s.root < s.types.length := by
  intro f doc s h
  rw [Schema2.translateTopF] at h
  cases hr : Schema2.resolveF f doc.definitions { resolved := [], types := [] } doc with
  | error e =>
    rw [hr] at h
    cases h
  | ok p =>
    obtain ⟨tx, root⟩ := p
    rw [hr] at h
    simp at h
    have hinit : Schema2.TxInv { resolved := [], types := [] } := by
      constructor <;> simp
    obtain ⟨hinv, hroot, _⟩ :=
      (inv_preserved f).1 doc.definitions { resolved := [], types := [] } doc tx root
        hinit hr
    rw [← h]
    exact ⟨hinv.2, hroot⟩

/-- Witness for C6 at the person document: both arena nodes are
well-formed and the root is in range. -/
theorem claim6_witness :
    (∀ t ∈ personSchema.types, Schema2.nodeOk personSchema.types.length t) ∧
      personSchema.root < personSchema.types.length :=
  claim6_no_dangling_index 20 personDoc personSchema (by rfl)

/-- C3: a null value yields no error for its subtree at any node of either
validator; a schema resolved by the translator yields no error for the null
value at the root; and a property missing from the object's fields is
looked up as null and therefore never flagged. -/
theorem claim3_null_wildcard :
    (∀ (s : Schema2.Schema) (t : Schema2.TypeInfo) (path : String),
        Schema2.validate_inner s t .null path = some []) ∧
    (∀ (t : Schema1.TypeInfo) (path : String),
        Schema1.validate_inner t .null path = some []) ∧
    (∀ (f : Nat) (doc : Schema2.SourceTypeInfo) (s : Schema2.Schema),
        Schema2.translateTopF f doc = .ok s →
        Schema2.validate s .null = some []) ∧
    (∀ (s : Schema2.Schema) (t : Schema2.TypeInfo)
        (fields : List (String × Value)) (key path : String),
        lookupA fields key = none →
        Schema2.validate_inner s t (lookupField fields key) path = some []) := by
  have h1 : ∀ (s : Schema2.Schema) (t : Schema2.TypeInfo) (path : String),
      Schema2.validate_inner s t .null path = some [] := by
    intro s t path
    simp [Schema2.validate_inner, Value.isNull]
  refine ⟨h1, ?_, ?_, ?_⟩
  · intro t path
    simp [Schema1.validate_inner, Value.isNull]
  · intro f doc s h
    rw [Schema2.translateTopF] at h
    cases hr : Schema2.resolveF f doc.definitions { resolved := [], types := [] } doc with
    | error e =>
      rw [hr] at h
      cases h
    | ok p =>
      obtain ⟨tx, root⟩ := p
      rw [hr] at h
      simp at h
      have hinit : Schema2.TxInv { resolved := [], types := [] } := by
        constructor <;> simp
      obtain ⟨_, hroot, _⟩ :=
        (inv_preserved f).1 doc.definitions { resolved := [], types := [] } doc tx root
          hinit hr
      rw [Schema2.validate, ← h]
      simp only [Schema2.Schema.typeInfo]
      rw [List.getElem?_eq_getElem hroot]
      exact h1 _ _ _
  · intro s t fields key path h
    rw [lookupField, h]
    exact h1 s t path

/-- Witness for C3: null at the root of the resolved person schema, and an
absent property key, both yield no error. -/
theorem claim3_witness :
    Schema2.validate personSchema .null = some [] ∧
    Schema2.validate_inner personSchema
      { type_ := .object, properties := [], items := 0 }
      (lookupField [("x", .number 1)] "y") "" = some [] := by
  constructor
  · exact claim3_null_wildcard.2.2.1 20 personDoc personSchema (by rfl)
  · exact claim3_null_wildcard.2.2.2 personSchema
      { type_ := .object, properties := [], items := 0 } [("x", .number 1)] "y" "" (by rfl)

/-- Related property lists drive the two property loops identically. -/
theorem goProps_corr (s : Schema2.Schema) {ps : List (String × Nat)}
    {ps1 : List (String × Schema1.TypeInfo)} (h : Schema2.corrProps s ps ps1) :
    ∀ fields path, Schema2.goProps s ps fields path = Schema1.goProps ps1 fields path := by
  induction h with
  | nil =>
    intro fields path
    simp [Schema2.goProps, Schema1.goProps]
  | cons hhead htail ih =>
    rename_i p2 p1 rest2 rest1
    obtain ⟨key, ci⟩ := p2
    obtain ⟨key1, t1⟩ := p1
    obtain ⟨hkey, ti, hti, hvp⟩ := hhead
    simp only [] at hkey
    subst hkey
    intro fields path
    rw [Schema2.goProps]
    simp only [Schema2.Schema.typeInfo]
    rw [hti]
    dsimp only []
    rw [hvp, ih fields path, Schema1.goProps]

/-- A related items node drives the two element loops identically. -/
theorem goElems_corr (s : Schema2.Schema) (ti : Schema2.TypeInfo)
    (t1 : Schema1.TypeInfo)
    (hvp : ∀ v path, Schema2.validate_inner s ti v path = Schema1.validate_inner t1 v path) :
    ∀ elems idx path, Schema2.goElems s ti elems idx path = Schema1.goElems t1 elems idx path := by
  intro elems
  induction elems with
  | nil =>
    intro idx path
    simp [Schema2.goElems, Schema1.goElems]
  | cons v rest ih =>
    intro idx path
    rw [Schema2.goElems, hvp, ih (idx + 1) path, Schema1.goElems]

/-- Node-level simulation: an arena node whose kind equals the schema1
node's kind, whose properties are pairwise related, and whose items index
is either the absent sentinel against None or related against Some,
validates every value exactly as the schema1 node does (the arena length
being bounded by the sentinel, as any Rust Vec length is). -/
theorem validate_inner_corr (s : Schema2.Schema) (t : Schema2.TypeInfo)
    (ty : Ty) (ps1 : List (String × Schema1.TypeInfo)) (it1 : Option Schema1.TypeInfo)
    (hty : t.type_ = ty)
    (hlen : s.types.length ≤ Schema2.usizeMAX)
    (hprops : Schema2.corrProps s t.properties ps1)
    (hitems : (t.items = Schema2.usizeMAX ∧ it1 = none) ∨
      (∃ c1, it1 = some c1 ∧ Schema2.corr s t.items c1)) :
    ∀ v path, Schema2.validate_inner s t v path =
      Schema1.validate_inner (.mk ty ps1 it1) v path := by
  intro v path
  cases v with
  | null => simp [Schema2.validate_inner, Schema1.validate_inner, Value.isNull]
  | bool b =>
    simp [Schema2.validate_inner, Schema1.validate_inner, Value.isNull, typeOf, hty,
      Schema1.TypeInfo.type_]
  | number n =>
    simp [Schema2.validate_inner, Schema1.validate_inner, Value.isNull, typeOf, hty,
      Schema1.TypeInfo.type_]
  | string str =>
    simp [Schema2.validate_inner, Schema1.validate_inner, Value.isNull, typeOf, hty,
      Schema1.TypeInfo.type_]
  | object fields =>
    by_cases hob : ty = Ty.object
    · subst hob
      rw [Schema2.validate_inner, Schema1.validate_inner]
      simp [Value.isNull, typeOf, hty, Schema1.TypeInfo.type_,
        Schema1.TypeInfo.properties, goProps_corr s hprops fields path]
    · rw [Schema2.validate_inner, Schema1.validate_inner]
      simp [Value.isNull, typeOf, hty, Schema1.TypeInfo.type_, Ne.symm hob]
  | array elems =>
    by_cases har : ty = Ty.array
    · subst har
      rw [Schema2.validate_inner, Schema1.validate_inner]
      rcases hitems with ⟨hmax, hnone⟩ | ⟨c1, hsome, ti2, hti2, hvp⟩
      · subst hnone
        have hnone2 : s.typeInfo t.items = none := by
          simp only [Schema2.Schema.typeInfo]
          apply List.getElem?_eq_none
          rw [hmax]
          exact hlen
        simp [Value.isNull, typeOf, hty, Schema1.TypeInfo.type_, Schema1.TypeInfo.items,
          hnone2]
      · subst hsome
        have hsome2 : s.typeInfo t.items = some ti2 := by
          simp only [Schema2.Schema.typeInfo]
          exact hti2
        simp [Value.isNull, typeOf, hty, Schema1.TypeInfo.type_, Schema1.TypeInfo.items,
          hsome2, goElems_corr s ti2 c1 hvp elems 0 path]
    · rw [Schema2.validate_inner, Schema1.validate_inner]
      simp [Value.isNull, typeOf, hty, Schema1.TypeInfo.type_, Ne.symm har]

/-- Indexing below the length of a list is unchanged by extending it on
the right. -/
theorem getElem?_pref {α : Type} {l1 l2 : List α} {i : Nat} (h : l1 <+: l2)
    (hi : i < l1.length) : l2[i]? = l1[i]? := by
  obtain ⟨t, rfl⟩ := h
  exact List.getElem?_append_left hi

/-- Simulation of the schema1 validator by resolution of a reference-free
node: resolving such a node leaves the resolved table unchanged, only
appends to the arena, and the produced index (node, property list) behaves
on every value exactly as the erased schema1 counterpart, in any arena
extending the one produced. -/
theorem sim_refFree :
    ∀ f : Nat,
      (∀ defs tx src tx2 i, Schema2.refFree src = true →
        Schema2.resolveF f defs tx src = .ok (tx2, i) →
        tx2.resolved = tx.resolved ∧ tx.types <+: tx2.types ∧ i < tx2.types.length ∧
        ∀ s : Schema2.Schema, tx2.types <+: s.types →
          s.types.length ≤ Schema2.usizeMAX → Schema2.corr s i (Schema2.erase src)) ∧
      (∀ defs tx src tx2 t, Schema2.refFree src = true →
        Schema2.translateF f defs tx src = .ok (tx2, t) →
        tx2.resolved = tx.resolved ∧ tx.types <+: tx2.types ∧
        ∀ s : Schema2.Schema, tx2.types <+: s.types →
          s.types.length ≤ Schema2.usizeMAX →
          ∀ v path, Schema2.validate_inner s t v path =
            Schema1.validate_inner (Schema2.erase src) v path) ∧
      (∀ defs tx l tx2 ps, Schema2.propsRefFree l = true →
        Schema2.propsF f defs tx l = .ok (tx2, ps) →
        tx2.resolved = tx.resolved ∧ tx.types <+: tx2.types ∧
        ∀ s : Schema2.Schema, tx2.types <+: s.types →
          s.types.length ≤ Schema2.usizeMAX →
          Schema2.corrProps s ps (Schema2.eraseProps l)) := by
  intro f
  induction f with
  | zero =>
    refine ⟨?_, ?_, ?_⟩ <;> intro defs tx a tx2 b _ h <;>
      simp [Schema2.resolveF, Schema2.translateF, Schema2.propsF] at h
  | succ f ih =>
    obtain ⟨ihR, ihT, ihP⟩ := ih
    refine ⟨?_, ?_, ?_⟩
    · intro defs tx src tx2 i hfree h
      have he : src.ref_ = "" := by
        obtain ⟨ty, props, items, r, ds⟩ := src
        rw [Schema2.SourceTypeInfo.ref_]
        cases items <;> simp [Schema2.refFree, Bool.and_eq_true] at hfree <;> tauto
      rw [Schema2.resolveF, if_pos he] at h
      cases ht : Schema2.translateF f defs tx src with
      | error e =>
        rw [ht] at h
        cases h
      | ok p =>
        obtain ⟨tx1, t⟩ := p
        rw [ht] at h
        simp at h
        obtain ⟨h1, h2⟩ := h
        obtain ⟨hres, hpre, hcorr⟩ := ihT defs tx src tx1 t hfree ht
        subst h1
        subst h2
        refine ⟨hres, hpre.trans (List.prefix_append _ _), by simp, ?_⟩
        intro s hs hlen
        refine ⟨t, ?_, ?_⟩
        · rw [getElem?_pref hs (by simp)]
          simp
        · exact hcorr s ((List.prefix_append _ _).trans hs) hlen
    · intro defs tx src tx2 t hfree h
      obtain ⟨ty, props, items, r, ds⟩ := src
      rw [Schema2.translateF] at h
      cases items with
      | none =>
        simp only [Schema2.refFree, Bool.and_eq_true] at hfree
        obtain ⟨⟨_, _⟩, hpfree⟩ := hfree
        rw [Schema2.SourceTypeInfo.items] at h
        dsimp only [] at h
        rw [Schema2.SourceTypeInfo.properties] at h
        cases hp : Schema2.propsF f defs tx props with
        | error e =>
          rw [hp] at h
          cases h
        | ok q =>
          obtain ⟨tx3, ps⟩ := q
          rw [hp] at h
          simp at h
          obtain ⟨h1, h2⟩ := h
          obtain ⟨hres, hpre, hcorr⟩ := ihP defs tx props tx3 ps hpfree hp
          subst h1
          refine ⟨hres, hpre, ?_⟩
          intro s hs hlen v path
          rw [← h2]
          have herase : Schema2.erase (.mk ty props none r ds) =
              .mk ty (Schema2.eraseProps props) none := by
            simp [Schema2.erase]
          rw [herase]
          exact validate_inner_corr s
            { type_ := ty, properties := ps, items := Schema2.usizeMAX }
            ty (Schema2.eraseProps props) none rfl hlen (hcorr s hs hlen)
            (.inl ⟨rfl, rfl⟩) v path
      | some it =>
        simp only [Schema2.refFree, Bool.and_eq_true] at hfree
        obtain ⟨⟨⟨_, _⟩, hitfree⟩, hpfree⟩ := hfree
        rw [Schema2.SourceTypeInfo.items] at h
        dsimp only [] at h
        rw [Schema2.SourceTypeInfo.properties] at h
        cases hr : Schema2.resolveF f defs tx it with
        | error e =>
          rw [hr] at h
          cases h
        | ok q =>
          obtain ⟨tx1, ii⟩ := q
          rw [hr] at h
          dsimp only [] at h
          obtain ⟨hres1, hpre1, hlt1, hcorr1⟩ := ihR defs tx it tx1 ii hitfree hr
          cases hp : Schema2.propsF f defs tx1 props with
          | error e =>
            rw [hp] at h
            cases h
          | ok q2 =>
            obtain ⟨tx3, ps⟩ := q2
            rw [hp] at h
            simp at h
            obtain ⟨h1, h2⟩ := h
            obtain ⟨hres3, hpre3, hcorr3⟩ := ihP defs tx1 props tx3 ps hpfree hp
            subst h1
            refine ⟨by rw [hres3, hres1], hpre1.trans hpre3, ?_⟩
            intro s hs hlen v path
            rw [← h2]
            have herase : Schema2.erase (.mk ty props (some it) r ds) =
                .mk ty (Schema2.eraseProps props) (some (Schema2.erase it)) := by
              simp [Schema2.erase]
            rw [herase]
            exact validate_inner_corr s
              { type_ := ty, properties := ps, items := ii }
              ty (Schema2.eraseProps props) (some (Schema2.erase it)) rfl hlen
              (hcorr3 s hs hlen)
              (.inr ⟨Schema2.erase it, rfl,
                hcorr1 s (hpre3.trans hs) hlen⟩) v path
    · intro defs tx l tx2 ps hfree h
      cases l with
      | nil =>
        rw [Schema2.propsF] at h
        simp at h
        obtain ⟨h1, h2⟩ := h
        subst h1
        subst h2
        exact ⟨rfl, List.prefix_refl _, fun s _ _ => List.Forall₂.nil⟩
      | cons p rest =>
        obtain ⟨k, v⟩ := p
        simp only [Schema2.propsRefFree, Bool.and_eq_true] at hfree
        obtain ⟨hvfree, hrestfree⟩ := hfree
        rw [Schema2.propsF] at h
        cases hr : Schema2.resolveF f defs tx v with
        | error e =>
          rw [hr] at h
          cases h
        | ok q =>
          obtain ⟨tx1, i⟩ := q
          rw [hr] at h
          dsimp only [] at h
          obtain ⟨hres1, hpre1, hlt1, hcorr1⟩ := ihR defs tx v tx1 i hvfree hr
          cases hp : Schema2.propsF f defs tx1 rest with
          | error e =>
            rw [hp] at h
            cases h
          | ok q2 =>
            obtain ⟨tx3, ps1⟩ := q2
            rw [hp] at h
            simp at h
            obtain ⟨h1, h2⟩ := h
            obtain ⟨hres3, hpre3, hcorr3⟩ := ihP defs tx1 rest tx3 ps1 hrestfree hp
            subst h1
            refine ⟨by rw [hres3, hres1], hpre1.trans hpre3, ?_⟩
            intro s hs hlen
            rw [← h2]
            have herase : Schema2.eraseProps ((k, v) :: rest) =
                (k, Schema2.erase v) :: Schema2.eraseProps rest := by
              simp [Schema2.eraseProps]
            rw [herase]
            exact List.Forall₂.cons ⟨rfl, hcorr1 s (hpre3.trans hs) hlen⟩
              (hcorr3 s hs hlen)

/-- C9: the resolved-graph engine subsumes schema1.  For a document with no
references and no definitions, resolving and then validating with the
schema2 engine gives exactly the same ordered error list (including the
panic outcome) as validating with the schema1 engine on the erased tree.
The arena-length bound merely records that a Rust Vec can never reach
usize::MAX entries. -/
theorem claim9_schema1_subsumed :
    ∀ (doc : Schema2.SourceTypeInfo) (f : Nat) (s : Schema2.Schema) (v : Value),
      Schema2.refFree doc = true →
      Schema2.translateTopF f doc = .ok s →
      s.types.length ≤ Schema2.usizeMAX →
      Schema2.validate s v = Schema1.validate (Schema2.erase doc) v := by
  intro doc f s v hfree h hlen
  rw [Schema2.translateTopF] at h
  cases hr : Schema2.resolveF f doc.definitions { resolved := [], types := [] } doc with
  | error e =>
    rw [hr] at h
    cases h
  | ok p =>
    obtain ⟨tx, root⟩ := p
    rw [hr] at h
    simp at h
    subst h
    obtain ⟨_, _, hroot, hcorr⟩ := (sim_refFree f).1 doc.definitions
      { resolved := [], types := [] } doc tx root hfree hr
    obtain ⟨ti, hti, hvp⟩ := hcorr { types := tx.types, root := root }
      (List.prefix_refl _) hlen
    rw [Schema2.validate]
    simp only [Schema2.Schema.typeInfo]
    rw [hti]
    rw [Schema1.validate]
    exact hvp v ""

/-- Witness for C9: the reference-free docC5 resolved and validated with
schema2 agrees with schema1 on valC5. -/
theorem claim9_witness :
    Schema2.validate
      { types := [ { type_ := .string, properties := [], items := Schema2.usizeMAX },
                   { type_ := .array, properties := [], items := 0 },
                   { type_ := .object, properties := [("items", 1)], items := Schema2.usizeMAX } ],
        root := 2 } valC5 =
      Schema1.validate (Schema2.erase docC5) valC5 :=
  claim9_schema1_subsumed docC5 10 _ valC5
    (by simp [Schema2.refFree, Schema2.propsRefFree, docC5])
    (by rfl) (by decide)
